import Mathlib

/-!
Verification development for the scikit-mechanics incremental elastoplastic
solver (`src/skmech/solvers/incremental.py`, `src/skmech/material.py`,
`src/skmech/model.py`).

Shallow embedding conventions:
* machine floats become exact rationals `ℚ`;
* numpy vectors indexed by degree of freedom become functions `Nat → ℚ`,
  dense matrices become functions `Nat × Nat → ℚ`, small per-element arrays
  become `List ℚ` / `List (List ℚ)`;
* the Gauss-point state dictionaries keyed by `(eid, gp_id)` become total
  functions `Nat × Nat → _` (the code initialises every key up front);
* Python exceptions become `Except` / explicit error constructors;
* the collaborator modules that are imported by `incremental.py` but are not
  part of the given sources (`dirichlet`, `neumann`, `constructor`,
  `state_update_mises`, `consistent_tangent_mises`, the gmsh writer) are
  either taken as explicit function parameters or modelled from the spec,
  as marked in the individual doc comments;
* `np.linalg.norm(r) <= tol` is embedded exactly as
  `0 ≤ tol ∧ (Σ i, r i ^ 2) ≤ tol ^ 2`, which is equivalent to
  `Real.sqrt (Σ i, r i ^ 2) ≤ tol` and keeps everything inside `ℚ`.
  Residual norms are therefore reported in squared form (`errSq`).
-/

namespace Skmech

/-! ## Small dense linear algebra over `ℚ` (lists) -/

/-- Dot product of two rational lists (truncating zip, like numpy on equal
shapes). -/
def dotV (a b : List ℚ) : ℚ := (List.zipWith (fun x y => x * y) a b).sum

/-- Elementwise sum of two rational lists. -/
def addV (a b : List ℚ) : List ℚ := List.zipWith (fun x y => x + y) a b

/-- Scalar multiple of a rational list. -/
def smulV (c : ℚ) (v : List ℚ) : List ℚ := v.map (fun x => c * x)

/-- Matrix (list of rows) times vector. -/
def matVec (M : List (List ℚ)) (v : List ℚ) : List ℚ :=
  M.map (fun row => dotV row v)

/-- Transpose of the 3×8 strain-displacement matrix applied to a 3-vector,
`Bᵀ σ = Σ_i σ_i · row_i`, producing an 8-entry list (the element internal
force shape used at `incremental.py:299`). -/
def matTvec8 (B : List (List ℚ)) (v : List ℚ) : List ℚ :=
  (B.zip v).foldl (fun acc p => addV acc (smulV p.2 p.1)) (List.replicate 8 0)

/-- Linear combination of rows: `Σ_i c_i · row_i` with an 8-entry zero seed. -/
def lincomb8 (coeffs : List ℚ) (rows : List (List ℚ)) : List ℚ :=
  (coeffs.zip rows).foldl (fun acc p => addV acc (smulV p.1 p.2)) (List.replicate 8 0)

/-- `Bᵀ D B` for the 3×8 matrix `B` and 3×3 tangent `D`
(`incremental.py:308`). Row `j` of the result is `Σ_i B_i_j · (D B)_i`. -/
def btdb (B D : List (List ℚ)) : List (List ℚ) :=
  let DB := D.map (fun drow => lincomb8 drow B)
  (List.range 8).map (fun j => lincomb8 (B.map (fun row => row.getD j 0)) DB)

/-- Elementwise sum of two matrices. -/
def addM (A C : List (List ℚ)) : List (List ℚ) := List.zipWith addV A C

/-- Scalar multiple of a matrix. -/
def smulM (c : ℚ) (M : List (List ℚ)) : List (List ℚ) := M.map (smulV c)

/-- Squared Euclidean norm of the first `n` entries of a dof-indexed vector;
embeds `np.linalg.norm(r)` at `incremental.py:125` in squared form. -/
def normSq (n : Nat) (r : Nat → ℚ) : ℚ :=
  ((List.range n).map (fun i => r i ^ 2)).sum

/-! ## Association lists standing for Python dicts -/

/-- First-match association-list lookup (Python `d[k]` / `d.get(k)`). -/
def alookup {α : Type} (k : Nat) : List (Nat × α) → Option α
  | [] => none
  | p :: rest => if p.1 = k then some p.2 else alookup k rest

/-- Python `dict` insertion `d[k] = v`: overwrite the existing entry in
place, else append. -/
def dictInsert {α : Type} (l : List (Nat × α)) (k : Nat) (v : α) : List (Nat × α) :=
  if (alookup k l).isSome then
    l.map (fun p => if p.1 = k then (k, v) else p)
  else l ++ [(k, v)]

/-- Python `base.update(upd)`: existing keys keep their position but take the
new value, new keys are appended (`incremental.py:112`). -/
def dictUpdate {α : Type} (base upd : List (Nat × α)) : List (Nat × α) :=
  base.map (fun p => (p.1, (alookup p.1 upd).getD p.2)) ++
    upd.filter (fun p => (alookup p.1 base).isNone)

/-- Pointwise update of a Gauss-point map at one `(eid, gp_id)` key. -/
def upd2 {α : Type} (f : Nat × Nat → α) (k : Nat × Nat) (v : α) : Nat × Nat → α :=
  fun x => if x = k then v else f x

/-- Pointwise update of an element-keyed map. -/
def upd1 {α : Type} (f : Nat → α) (k : Nat) (v : α) : Nat → α :=
  fun x => if x = k then v else f x

/-! ## Data model -/

/-- Result record of the local constitutive update
(`state_update_mises` returns `sig, eps_e, eps_bar_p, dgamma, ep_flag`,
consumed at `incremental.py:280`). -/
structure SUpd where
  sig : List ℚ
  eps_e : List ℚ
  eps_bar_p : ℚ
  dgamma : ℚ
  ep_flag : Bool
deriving Repr

instance : Inhabited SUpd := ⟨⟨[], [], 0, 0, false⟩⟩

/-- Type of the local constitutive solver taken as a parameter; arguments
are `E nu H sig_y0 eps_e_trial eps_bar_p_trial max_num_local_iter`
(signature at `incremental.py:280`, module `plasticity.stateupdatemises`
is not part of the given sources). -/
abbrev SupdFun := ℚ → ℚ → ℚ → ℚ → List ℚ → ℚ → Nat → SUpd

/-- Type of the consistent tangent operator taken as a parameter; arguments
are `dgamma sig E nu H ep_flag` (signature at `incremental.py:304`, module
`plasticity.tangentmises` is not part of the given sources). -/
abbrev CtmFun := ℚ → List ℚ → ℚ → ℚ → ℚ → Bool → List (List ℚ)

/-- Modelled from the spec: the per-element view delivered by the external
Geometry/Material Provider (spec §2 item 1, §6) which the source obtains via
`constructor(eid, etype, model)`; module `constructor` is not part of the
given sources.  `dof` is the 1-based dof list (`element.dof`),
`B`/`dJ` package `shape_function`, `jacobian` and `gradient_operator`
as a function of the Gauss point. -/
structure Element where
  dof : List Nat
  physical_surf : Nat
  E : ℚ
  nu : ℚ
  thickness : ℚ
  gauss : List (ℚ × (ℚ × ℚ))
  B : ℚ × ℚ → List (List ℚ)
  dJ : ℚ × ℚ → ℚ

/-- 0-based dof indices `element.id_v` = `element.dof - 1`
(`incremental.py:237,312`). -/
def elem_id_v (e : Element) : List Nat := e.dof.map (fun d => d - 1)

/-- Modelled from the spec: matrix index set `element.id_m` of the
constructor-built element, the row-major pairing of `id_v` with itself
(`np.ix_`-style indexing used at `incremental.py:313`). -/
def elem_id_m (e : Element) : List (Nat × Nat) :=
  (elem_id_v e).product (elem_id_v e)

/-- Material object from `material.py`: `E` and `nu` are mandatory
per-surface dictionaries, `H` and `sig_y0` are optional attributes
(absent attribute modelled as `none`). -/
structure Material where
  E : List (Nat × ℚ)
  nu : List (Nat × ℚ)
  H : Option (List (Nat × ℚ))
  sig_y0 : Option (List (Nat × ℚ))
  case : String

/-- Keyword dictionary handed to `Material.__init__` (`**mat_dic`); a `none`
field models a missing keyword. -/
structure MatDic where
  E : Option (List (Nat × ℚ))
  nu : Option (List (Nat × ℚ))
  H : Option (List (Nat × ℚ))
  sig_y0 : Option (List (Nat × ℚ))

/-- Embedding of `Material.__init__` (`material.py:37`): a missing `E`
raises `Missing E`, then a missing `nu` raises `Missing nu`; `H` and
`sig_y0` are optional (`try/except KeyError: pass`). -/
def material_new (case : String) (mat_dic : MatDic) : Except String Material :=
  match mat_dic.E with
  | none => .error "Missing E"
  | some e =>
    match mat_dic.nu with
    | none => .error "Missing nu"
    | some n => .ok ⟨e, n, mat_dic.H, mat_dic.sig_y0, case⟩

/-- Model object: the fields of `model.py`'s `Model` that the incremental
solver reads.  `elementObj` is the external constructor (spec §6),
`phys_nodes`/`node_dof` package the mesh lookup used to expand a
physical-location boundary condition into dof constraints
(pattern of `model.py:68` `get_connectivity_matrices`), and `neumann_load`
is the external traction assembler `neumann(model)`
(`incremental.py:328`). -/
structure Mdl where
  num_dof : Nat
  elements : List Nat
  num_quad_points : Nat → Nat
  material : Material
  imposed_displ : Option (List (Nat × (Option ℚ × Option ℚ)))
  displacement_bc : List (Nat × (Option ℚ × Option ℚ))
  thickness : ℚ
  elementObj : Nat → Element
  phys_nodes : Nat → List Nat
  node_dof : Nat → Nat × Nat
  neumann_load : Nat → ℚ

/-- Committed (persisted) Gauss-point state owned by `solver`:
`eps_e_n`, `eps_bar_p_n`, `dgamma_n` (`incremental.py:59-68`). -/
structure Committed where
  eps_e : Nat × Nat → List ℚ
  eps_bar_p : Nat × Nat → ℚ
  dgamma : Nat × Nat → ℚ

/-- Initial committed state: zero elastic strain, zero accumulated plastic
strain, zero plastic-multiplier increment at every key
(`incremental.py:59-68`). -/
def init_comm (_mdl : Mdl) : Committed :=
  ⟨fun _ => List.replicate 3 0, fun _ => 0, fun _ => 0⟩

/-- Transient candidate-state dictionaries `int_var` rebuilt by each
`local_solver` call (`incremental.py:230`). -/
structure IntVar where
  eps_e : Nat × Nat → List ℚ
  eps_bar_p : Nat × Nat → ℚ
  dgamma : Nat × Nat → ℚ
  sig_ele : Nat → List ℚ

/-- Fresh transient dictionaries at the start of a `local_solver` call. -/
def iv0 : IntVar := ⟨fun _ => [], fun _ => 0, fun _ => 0, fun _ => []⟩

instance : Inhabited IntVar := ⟨iv0⟩

/-! ## Local constitutive solver modelled from the spec -/

/-- Modelled from the spec: plane elastic constitutive matrix `D_e(E, ν)`
(spec §4.1 step 1, plane-stress form); module
`plasticity.stateupdatemises` is not part of the given sources. -/
def de_matrix (E nu : ℚ) : List (List ℚ) :=
  smulM (E / (1 - nu ^ 2)) [[1, nu, 0], [nu, 1, 0], [0, 0, (1 - nu) / 2]]

/-- Modelled from the spec: inverse plane-stress elastic matrix, used for
`ε_e_new = D_e⁻¹ σ` (spec §4.1 step 5). -/
def de_inv (E nu : ℚ) : List (List ℚ) :=
  smulM (1 / E) [[1, -nu, 0], [-nu, 1, 0], [0, 0, 2 * (1 + nu)]]

/-- Modelled from the spec: squared von Mises equivalent stress of a plane
stress vector `[σx, σy, σxy]` (spec §4.1 step 2, kept in squared form so the
embedding stays rational; the caller supplies the square root `rt`). -/
def q_sq (s : List ℚ) : ℚ :=
  (s.getD 0 0) ^ 2 - (s.getD 0 0) * (s.getD 1 0) + (s.getD 1 0) ^ 2 +
    3 * (s.getD 2 0) ^ 2

/-- Modelled from the spec: the von Mises return mapping `state_update_mises`
(spec §4.1; module `plasticity.stateupdatemises` is not part of the given
sources).  `rt` is the square-root operation on the nonnegative rationals
produced by `q_sq` (floating point `sqrt` in the source).  The scalar
consistency equation `q_trial − 3GΔγ − (σ_y0 + H(ε̄p_prev + Δγ)) = 0` of
spec §4.1 step 5 is linear in `Δγ` for linear isotropic hardening, so the
spec-sanctioned closed-form solve is used and `max_num_local_iter` is not
consumed. -/
def state_update_mises (rt : ℚ → ℚ) (E nu H sig_y0 : ℚ)
    (eps_e_trial : List ℚ) (eps_bar_p_trial : ℚ) (_max_num_local_iter : Nat) : SUpd :=
  let sig_trial := matVec (de_matrix E nu) eps_e_trial
  let q_trial := rt (q_sq sig_trial)
  let f_trial := q_trial - (sig_y0 + H * eps_bar_p_trial)
  if f_trial ≤ 0 then
    ⟨sig_trial, eps_e_trial, eps_bar_p_trial, 0, false⟩
  else
    let G := E / (2 * (1 + nu))
    let dgamma := f_trial / (3 * G + H)
    let fac := 1 - 3 * G * dgamma / q_trial
    let p := ((sig_trial.getD 0 0) + (sig_trial.getD 1 0)) / 3
    let sig := [p + fac * (sig_trial.getD 0 0 - p),
                p + fac * (sig_trial.getD 1 0 - p),
                fac * (sig_trial.getD 2 0)]
    ⟨sig, matVec (de_inv E nu) sig, eps_bar_p_trial + dgamma, dgamma, true⟩

/-! ## Element assembler (`local_solver`) -/

/-- Numpy fancy-indexed accumulation `f[ids] += vals`
(`incremental.py:312-313`): gather, add, scatter; on duplicate indices the
last write wins, exactly as numpy's buffered scatter behaves. -/
def scatterAdd {κ : Type} [DecidableEq κ] (f : κ → ℚ) (ids : List κ)
    (vals : List ℚ) : κ → ℚ :=
  fun i =>
    match ((ids.zip vals).filter (fun p => decide (p.1 = i))).getLast? with
    | some p => f i + p.2
    | none => f i

/-- Total contribution of one scatter `(ids, vals)` to global entry `i`
(the sum of all local values destined for `i`). -/
def scatterContrib {κ : Type} [DecidableEq κ] (ids : List κ) (vals : List ℚ)
    (i : κ) : ℚ :=
  (((ids.zip vals).filter (fun p => decide (p.1 = i))).map (fun p => p.2)).sum

/-- Per-Gauss-point accumulator of the quadrature loop
(`incremental.py:260-308`): element internal force `f_int_e`, element
tangent `k_T_e`, and the transient `int_var` dictionaries. -/
abbrev GpAcc := List ℚ × List (List ℚ) × IntVar

/-- Quadrature loop of `local_solver` (`incremental.py:260-308`) over the
enumerated Gauss list `(gp_id, (w, gp))` of one element `eid`:
strain increment from `du_ele`, trial strains from the committed maps,
local update `supd`, transient `int_var` writes, internal-force and tangent
accumulation.  The tangent uses `comm.dgamma (eid, gp_id)` — the
plastic-multiplier increment of the previous converged step — per
`incremental.py:303-305`. -/
def gp_loop (supd : SupdFun) (ctm : CtmFun) (e : Element) (eid : Nat)
    (H sig_y0 : ℚ) (max_num_local_iter : Nat) (comm : Committed)
    (du_ele : List ℚ) : List (Nat × (ℚ × (ℚ × ℚ))) → GpAcc → GpAcc
  | [], acc => acc
  | (gp_id, (w, gp)) :: rest, (fe, ke, iv) =>
    let B := e.B gp
    let dJ := e.dJ gp
    let deps := matVec B du_ele
    let eps_e_trial := addV (comm.eps_e (eid, gp_id)) deps
    let eps_bar_p_trial := comm.eps_bar_p (eid, gp_id)
    let s := supd e.E e.nu H sig_y0 eps_e_trial eps_bar_p_trial max_num_local_iter
    let iv' : IntVar :=
      { eps_e := upd2 iv.eps_e (eid, gp_id) s.eps_e
        eps_bar_p := upd2 iv.eps_bar_p (eid, gp_id) s.eps_bar_p
        dgamma := upd2 iv.dgamma (eid, gp_id) s.dgamma
        sig_ele := upd1 iv.sig_ele eid
          (addV (iv.sig_ele eid) (smulV (1 / (e.gauss.length : ℚ)) s.sig)) }
    let fe' := addV fe (smulV (dJ * w * e.thickness) (matTvec8 B s.sig))
    let D := ctm (comm.dgamma (eid, gp_id)) s.sig e.E e.nu H s.ep_flag
    let ke' := addM ke (smulM (dJ * w * e.thickness) (btdb B D))
    gp_loop supd ctm e eid H sig_y0 max_num_local_iter comm du_ele rest (fe', ke', iv')

/-- Hardening-modulus lookup `model.material.H[element.physical_surf]`
(`incremental.py:245`); `none` models the `AttributeError`/`KeyError`. -/
def H_of (mdl : Mdl) (eid : Nat) : Option ℚ :=
  mdl.material.H.bind (alookup (mdl.elementObj eid).physical_surf)

/-- Yield-stress lookup `model.material.sig_y0[element.physical_surf]`
(`incremental.py:246`). -/
def sig_y0_of (mdl : Mdl) (eid : Nat) : Option ℚ :=
  mdl.material.sig_y0.bind (alookup (mdl.elementObj eid).physical_surf)

/-- Both per-surface plasticity properties are available for element `eid`. -/
def has_props (mdl : Mdl) (eid : Nat) : Prop :=
  (H_of mdl eid).isSome ∧ (sig_y0_of mdl eid).isSome

instance (mdl : Mdl) (eid : Nat) : Decidable (has_props mdl eid) :=
  inferInstanceAs (Decidable (_ ∧ _))

/-- Message of the exception raised at `incremental.py:248-249` (the two
adjacent string literals concatenate without a space in the source). -/
def missing_prop_msg : String :=
  "Missing material property H and sig_y0 inthe material object"

/-- Element gather of the global displacement increment,
`du_ele = du[element.dof - 1]` (`incremental.py:237-238`). -/
def du_gather (du : Nat → ℚ) (e : Element) : List ℚ :=
  e.dof.map (fun d => du (d - 1))

/-- Element loop of `local_solver` (`incremental.py:233-313`): for each
element look up `H`/`sig_y0` (raising on a missing property), run the
quadrature loop from zero element arrays and a `sig_ele[eid] = zeros(3)`
slot, then scatter the element vector and matrix into the global arrays
with `+=`. -/
def ls_elems (supd : SupdFun) (ctm : CtmFun) (mdl : Mdl)
    (du : Nat → ℚ) (comm : Committed) (max_num_local_iter : Nat) :
    List Nat → (Nat → ℚ) × (Nat × Nat → ℚ) × IntVar →
    Except String ((Nat → ℚ) × (Nat × Nat → ℚ) × IntVar)
  | [], acc => .ok acc
  | eid :: rest, (f_int, K_T, iv) =>
    let e := mdl.elementObj eid
    match H_of mdl eid, sig_y0_of mdl eid with
    | some H, some sy =>
      let du_ele := du_gather du e
      let iv1 : IntVar := { iv with sig_ele := upd1 iv.sig_ele eid (List.replicate 3 0) }
      let (fe, ke, iv2) := gp_loop supd ctm e eid H sy max_num_local_iter comm du_ele
        e.gauss.enum (List.replicate 8 0, List.replicate 8 (List.replicate 8 0), iv1)
      ls_elems supd ctm mdl du comm max_num_local_iter rest
        (scatterAdd f_int (elem_id_v e) fe,
         scatterAdd K_T (elem_id_m e) ke.flatten, iv2)
    | _, _ => .error missing_prop_msg

/-- Embedding of `local_solver` (`incremental.py:177-315`): global arrays
start at zero (`incremental.py:224-225`), transient `int_var` dictionaries
are fresh (`incremental.py:230`), then the element loop runs. -/
def local_solver (supd : SupdFun) (ctm : CtmFun) (mdl : Mdl) (_num_dof : Nat)
    (du : Nat → ℚ) (comm : Committed) (max_num_local_iter : Nat) :
    Except String ((Nat → ℚ) × (Nat × Nat → ℚ) × IntVar) :=
  ls_elems supd ctm mdl du comm max_num_local_iter mdl.elements
    (fun _ => 0, fun _ => 0, iv0)

/-- Internal-force component of a `local_solver` run (zero function when the
run raises). -/
def ls_fint (supd : SupdFun) (ctm : CtmFun) (mdl : Mdl) (num_dof : Nat)
    (du : Nat → ℚ) (comm : Committed) (max_num_local_iter : Nat) : Nat → ℚ :=
  match local_solver supd ctm mdl num_dof du comm max_num_local_iter with
  | .ok (f, _, _) => f
  | .error _ => fun _ => 0

/-- Tangent-matrix component of a `local_solver` run (zero function when the
run raises). -/
def ls_ktan (supd : SupdFun) (ctm : CtmFun) (mdl : Mdl) (num_dof : Nat)
    (du : Nat → ℚ) (comm : Committed) (max_num_local_iter : Nat) : Nat × Nat → ℚ :=
  match local_solver supd ctm mdl num_dof du comm max_num_local_iter with
  | .ok (_, K, _) => K
  | .error _ => fun _ => 0

/-- Stand-alone element contribution `(f_int_e, k_T_e)` of one element, run
from zero local arrays (used to state the scatter-sum theorem). -/
def elem_contrib (supd : SupdFun) (ctm : CtmFun) (mdl : Mdl)
    (du : Nat → ℚ) (comm : Committed) (max_num_local_iter : Nat) (eid : Nat) :
    List ℚ × List (List ℚ) :=
  let e := mdl.elementObj eid
  let acc := gp_loop supd ctm e eid ((H_of mdl eid).getD 0) ((sig_y0_of mdl eid).getD 0)
    max_num_local_iter comm (du_gather du e) e.gauss.enum
    (List.replicate 8 0, List.replicate 8 (List.replicate 8 0), iv0)
  (acc.1, acc.2.1)

/-! ## Boundary conditions and the global Newton driver -/

/-- Scaling loop over the copied `imposed_displ` dictionary
(`incremental.py:102-109`): each non-`None` component of each constraint is
rebound to `d * lmbda`; the tuple values of the original dictionary are
never modified. -/
def scale_imposed (lmbda : ℚ) (il : List (Nat × (Option ℚ × Option ℚ))) :
    List (Nat × (Option ℚ × Option ℚ)) :=
  il.map (fun p => (p.1, (p.2.1.map (fun d => d * lmbda),
                          p.2.2.map (fun d => d * lmbda))))

/-- Displacement-control block of the Newton iteration
(`incremental.py:100-112`): when `model.imposed_displ` is present, a copy is
scaled by the load factor and merged into `model.displacement_bc` with
`dict.update`; `model.imposed_displ` itself is left untouched (the Python
code rebinds components of a shallow copy). -/
def apply_displacement_bc (lmbda : ℚ) (mdl : Mdl) : Mdl :=
  match mdl.imposed_displ with
  | none => mdl
  | some il =>
    { mdl with displacement_bc := dictUpdate mdl.displacement_bc (scale_imposed lmbda il) }

/-- Modelled from the spec: expansion of the location-keyed displacement
constraints into per-dof prescribed values, following the partition
contract of spec §4.4 and the per-direction expansion pattern of
`model.py:68-107` (`get_connectivity_matrices`): each physical location
contributes, for every node on it, its x-dof when the first component is
non-`None` and its y-dof when the second is. -/
def bc_expand (mdl : Mdl) (bc : List (Nat × (Option ℚ × Option ℚ))) :
    List (Nat × ℚ) :=
  bc.foldr (fun loc acc =>
    ((mdl.phys_nodes loc.1).foldr (fun n acc2 =>
      (match loc.2.1 with
       | some v => [((mdl.node_dof n).1, v)]
       | none => []) ++
      (match loc.2.2 with
       | some v => [((mdl.node_dof n).2, v)]
       | none => []) ++ acc2) []) ++ acc) []

/-- Modelled from the spec: the boundary-condition partitioner `dirichlet`
(spec §4.4; module `dirichlet` is not part of the given sources).  The
reduced system keeps the full index range: restrained rows/columns are
eliminated (unit diagonal) and the restrained residual entries are replaced
by the negated prescribed value, so that a zero prescribed value with a zero
residual yields a zero reduced residual. -/
def dirichlet (K_T : Nat × Nat → ℚ) (r : Nat → ℚ) (mdl : Mdl) :
    (Nat × Nat → ℚ) × (Nat → ℚ) :=
  let cons := bc_expand mdl mdl.displacement_bc
  (fun p =>
     if (alookup p.1 cons).isSome ∨ (alookup p.2 cons).isSome then
       (if p.1 = p.2 then 1 else 0)
     else K_T p,
   fun i =>
     match alookup i cons with
     | some v => -v
     | none => r i)

/-- Type of the linear solve `np.linalg.solve` taken as a parameter
(`incremental.py:117`): matrix and right-hand side to solution. -/
abbrev LinSolve := (Nat × Nat → ℚ) → (Nat → ℚ) → (Nat → ℚ)

/-- Convergence test `err <= tol` of `incremental.py:129`, embedded exactly:
for the Euclidean norm `err = sqrt errSq` with `errSq ≥ 0`,
`err ≤ tol ↔ 0 ≤ tol ∧ errSq ≤ tol²`. -/
def conv_check (errSq tol : ℚ) : Bool :=
  decide (0 ≤ tol) && decide (errSq ≤ tol ^ 2)

/-- Result of one global Newton iteration body (`incremental.py:88-128`):
updated displacement vectors, the model after the displacement-control
update, the candidate `int_var`, and the squared residual norm. -/
structure PassOut where
  u2 : Nat → ℚ
  du2 : Nat → ℚ
  mdl2 : Mdl
  intVar : IntVar
  errSq : ℚ

instance : Inhabited PassOut := ⟨⟨fun _ => 0, fun _ => 0,
  ⟨0, [], fun _ => 0, ⟨[], [], none, none, ""⟩, none, [], 1,
   fun _ => ⟨[], 0, 0, 0, 0, [], fun _ => [], fun _ => 0⟩,
   fun _ => [], fun _ => (0, 0), fun _ => 0⟩, iv0, 0⟩⟩

/-- One global Newton iteration (`incremental.py:88-128`): assemble via
`local_solver`, residual `r = f_int − f_ext`, displacement-control update of
the boundary conditions, partition, solve, accumulate the correction into
`du` and `u`, and compute the (squared) residual norm — note the norm is
taken of `r`, not of the partitioned `r_m`. -/
def newton_pass (supd : SupdFun) (ctm : CtmFun) (linsolve : LinSolve)
    (f_ext : Nat → ℚ) (lmbda : ℚ) (max_num_local_iter : Nat)
    (comm : Committed) (u du : Nat → ℚ) (mdl : Mdl) : Except String PassOut :=
  match local_solver supd ctm mdl mdl.num_dof du comm max_num_local_iter with
  | .error e => .error e
  | .ok (f_int, K_T, iv) =>
    let r := fun i => f_int i - f_ext i
    let mdl2 := apply_displacement_bc lmbda mdl
    let Km_rm := dirichlet K_T r mdl2
    let nr := fun i => -(linsolve Km_rm.1 Km_rm.2 i)
    .ok { u2 := fun i => u i + nr i
          du2 := fun i => du i + nr i
          mdl2 := mdl2
          intVar := iv
          errSq := normSq mdl.num_dof r }

/-- Outcome of the global Newton loop of one load increment
(`incremental.py:87-171`). -/
inductive NOut where
  /-- `err <= tol` at (1-based) iteration `iters`; candidate `int_var`,
  updated displacements and model are handed to the commit code. -/
  | converged (iters : Nat) (u du : Nat → ℚ) (iv : IntVar) (errSq : ℚ) (mdl : Mdl)
  /-- all iterations elapsed; `kRep` is the Python loop variable after the
  `for`/`else` (the index of the last iteration run) and `errSq` the last
  residual. -/
  | diverged (kRep : Nat) (errSq : ℚ) (u : Nat → ℚ) (mdl : Mdl)
  /-- a configuration exception from `local_solver` propagated out. -/
  | propErr (msg : String)
  /-- `max_num_iter = 0`: the Python `else` clause reads the unbound `k` and
  `err` and dies with a `NameError`. -/
  | nameFault

/-- Global Newton loop `for k in range(0, max_num_iter)` with its `else`
clause (`incremental.py:87-171`), as a fuel recursion: `fuel` is the number
of iterations still allowed, `k` the current 0-based iteration index.  A
non-converged iteration recurses with the updated `u`, `du` and model but
with the *same* committed maps `comm`; only a converged iteration exposes
its candidate `int_var`. -/
def newton_loop (supd : SupdFun) (ctm : CtmFun) (linsolve : LinSolve)
    (f_ext : Nat → ℚ) (lmbda tol : ℚ) (max_num_local_iter : Nat) :
    Nat → Nat → (Nat → ℚ) → (Nat → ℚ) → Committed → Mdl → NOut
  | 0, _, _, _, _, _ => .nameFault
  | fuel + 1, k, u, du, comm, mdl =>
    match newton_pass supd ctm linsolve f_ext lmbda max_num_local_iter comm u du mdl with
    | .error e => .propErr e
    | .ok p =>
      if conv_check p.errSq tol then
        .converged (k + 1) p.u2 p.du2 p.intVar p.errSq p.mdl2
      else
        match fuel with
        | 0 => .diverged k p.errSq p.u2 p.mdl2
        | f + 1 =>
          newton_loop supd ctm linsolve f_ext lmbda tol max_num_local_iter
            (f + 1) (k + 1) p.u2 p.du2 comm p.mdl2

/-! ## Load stepping (`solver`) -/

/-- Dense solution-history array `displ = np.zeros((num_dof, len))`
(`incremental.py:47`), indexed `[dof, load-increment]`. -/
structure Displ where
  rows : Nat
  cols : Nat
  entry : Nat → Nat → ℚ

/-- Column assignment `displ[:, incr_id] = u` (`incremental.py:135`). -/
def setCol (d : Displ) (c : Nat) (u : Nat → ℚ) : Displ :=
  { d with entry := fun i j => if j = c then u i else d.entry i j }

/-- Element field `eps_bar_p_avg` built at `incremental.py:151-153`:
the dict comprehension
`{eid: eps_bar_p_n[(eid, gp)] for eid in elements for gp in range(4)}`
embedded with Python dict overwrite semantics (later `gp` values overwrite
earlier ones for the same `eid` key). -/
def eps_bar_p_avg_field (eids : List Nat) (ebp : Nat × Nat → ℚ) :
    List (Nat × ℚ) :=
  eids.foldl (fun d eid =>
    (List.range 4).foldl (fun d2 gp => dictInsert d2 eid (ebp (eid, gp))) d) []

/-- True element average of the committed accumulated plastic strain over an
element's integration points, written from the words of the claim/spec
("the average of that element's committed Gauss-point accumulated plastic
strains over the element's integration points"), for comparison with
`eps_bar_p_avg_field`. -/
def eps_bar_p_true_avg (ngp : Nat) (ebp : Nat × Nat → ℚ) (eid : Nat) : ℚ :=
  ((List.range ngp).map (fun gp => ebp (eid, gp))).sum / (ngp : ℚ)

/-- Mutable running state owned by the driver across load increments:
total displacement `u`, the committed Gauss-point maps, the (mutated) model
object, the dense solution history, and the per-increment
`Cummulative plastic strain` fields handed to the external reporting
collaborator (`write_field`). -/
structure RunState where
  u : Nat → ℚ
  comm : Committed
  mdl : Mdl
  displ : Displ
  emitted : List (Nat × List (Nat × ℚ))

/-- Fatal outcomes of `solver`. -/
inductive SolverErr where
  /-- configuration exception propagated from `local_solver`
  (`incremental.py:248`). -/
  | config (msg : String)
  /-- the exception of `incremental.py:169-171`: 1-based increment index,
  the reported iteration variable `k`, the last squared residual norm, and
  the committed Gauss-point maps still held (uncommitted) at raise time. -/
  | nonconv (incr iters : Nat) (errSq : ℚ) (comm : Committed)
  /-- the `NameError` of the `max_num_iter = 0` edge. -/
  | nameFault

/-- External load vector `external_load_vector` (`incremental.py:318-329`):
only the traction assembled by the external `neumann` collaborator. -/
def external_load_vector (mdl : Mdl) : Nat → ℚ :=
  mdl.neumann_load

/-- Load vector of one pseudo time step, `f_ext = lmbda * f_ext_bar`
(`incremental.py:80`). -/
def scaled_f_ext (lmbda : ℚ) (f_ext_bar : Nat → ℚ) : Nat → ℚ :=
  fun i => lmbda * f_ext_bar i

/-- One load increment (`incremental.py:76-171`): run the Newton loop from
`du = 0`; on convergence commit the candidate `int_var` into the persisted
maps, store the displacement column and emit the element plastic-strain
field; on divergence raise with the 1-based increment index, the loop
variable `k`, and the last residual norm. -/
def increment_step (supd : SupdFun) (ctm : CtmFun) (linsolve : LinSolve)
    (max_num_iter : Nat) (tol : ℚ) (max_num_local_iter : Nat)
    (f_ext_bar : Nat → ℚ) (incr_id : Nat) (lmbda : ℚ) (st : RunState) :
    Except SolverErr RunState :=
  match newton_loop supd ctm linsolve (scaled_f_ext lmbda f_ext_bar) lmbda tol
      max_num_local_iter max_num_iter 0 st.u (fun _ => 0) st.comm st.mdl with
  | .converged _iters u2 _du2 iv _errSq mdl2 =>
    .ok { u := u2
          comm := ⟨iv.eps_e, iv.eps_bar_p, iv.dgamma⟩
          mdl := mdl2
          displ := setCol st.displ incr_id u2
          emitted := st.emitted ++ [(incr_id, eps_bar_p_avg_field mdl2.elements iv.eps_bar_p)] }
  | .diverged kRep errSq _u2 _mdl2 => .error (.nonconv (incr_id + 1) kRep errSq st.comm)
  | .propErr msg => .error (.config msg)
  | .nameFault => .error .nameFault

/-- Loop over the load increments (`incremental.py:76`); a raised exception
aborts the run, never reaching the remaining increments. -/
def solver_loop (supd : SupdFun) (ctm : CtmFun) (linsolve : LinSolve)
    (max_num_iter : Nat) (tol : ℚ) (max_num_local_iter : Nat)
    (f_ext_bar : Nat → ℚ) : List ℚ → Nat → RunState → Except SolverErr RunState
  | [], _, st => .ok st
  | lmbda :: rest, incr_id, st =>
    match increment_step supd ctm linsolve max_num_iter tol max_num_local_iter
        f_ext_bar incr_id lmbda st with
    | .ok st2 => solver_loop supd ctm linsolve max_num_iter tol
        max_num_local_iter f_ext_bar rest (incr_id + 1) st2
    | .error e => .error e

/-- Numpy `np.linspace(start, stop, n)`. -/
def linspace (start stop : ℚ) (n : Nat) : List ℚ :=
  (List.range n).map (fun i => start + (stop - start) * i / ((n : ℚ) - 1))

/-- Default `num_load_increments` of the `solver` signature
(`incremental.py:16`). -/
def default_num_load_increments : Nat := 10

/-- Default `max_num_iter` of the `solver` signature (`incremental.py:17`). -/
def default_max_num_iter : Nat := 5

/-- Default `tol` of the `solver` signature (`incremental.py:17`). -/
def default_tol : ℚ := 1 / 1000000

/-- Default `max_num_local_iter` of the `solver` signature
(`incremental.py:18`). -/
def default_max_num_local_iter : Nat := 100

/-- Default `thickness` of `Model.__init__` (`model.py:30`). -/
def default_thickness : ℚ := 1

/-- Resolution of the load program (`incremental.py:38-39`): `None` becomes
`np.linspace(0, 1, num_load_increments)`. -/
def resolve_load_increment (li : Option (List ℚ)) (num_load_increments : Nat) :
    List ℚ :=
  li.getD (linspace 0 1 num_load_increments)

/-- Embedding of `solver` (`incremental.py:14-174`): resolve the load
program, zero-initialise the displacement history, the total displacement
and the committed Gauss-point maps, build the reference external load
vector once, and run the load-increment loop; returns the displacement
history and the load program like the source, plus the final run state. -/
def solver (supd : SupdFun) (ctm : CtmFun) (linsolve : LinSolve) (mdl : Mdl)
    (load_increment : Option (List ℚ)) (num_load_increments : Nat)
    (max_num_iter : Nat) (tol : ℚ) (max_num_local_iter : Nat) :
    Except SolverErr (Displ × List ℚ × RunState) :=
  let li := resolve_load_increment load_increment num_load_increments
  let st0 : RunState :=
    { u := fun _ => 0
      comm := init_comm mdl
      mdl := mdl
      displ := ⟨mdl.num_dof, li.length, fun _ _ => 0⟩
      emitted := [] }
  match solver_loop supd ctm linsolve max_num_iter tol max_num_local_iter
      (external_load_vector mdl) li 0 st0 with
  | .ok st => .ok (st.displ, li, st)
  | .error e => .error e

/-! ## Association-list lemmas -/

lemma alookup_append {α : Type} (k : Nat) (a b : List (Nat × α)) :
    alookup k (a ++ b) =
      match alookup k a with
      | some v => some v
      | none => alookup k b := by
  induction a with
  | nil => simp [alookup]
  | cons p rest ih =>
    by_cases h : p.1 = k <;> simp [alookup, h, ih]

lemma alookup_of_mem_nodup {α : Type} {k : Nat} {v : α} {l : List (Nat × α)}
    (hmem : (k, v) ∈ l) (hnd : (l.map Prod.fst).Nodup) :
    alookup k l = some v := by
  induction l with
  | nil => simp at hmem
  | cons p rest ih =>
    rcases List.mem_cons.mp hmem with h | h
    · simp [← h, alookup]
    · have hk : p.1 ≠ k := by
        intro he
        have : k ∈ rest.map Prod.fst := List.mem_map.mpr ⟨(k, v), h, rfl⟩
        simp only [List.map_cons, List.nodup_cons] at hnd
        exact hnd.1 (he ▸ this)
      simp only [List.map_cons, List.nodup_cons] at hnd
      simp [alookup, hk, ih h hnd.2]

lemma alookup_filter_of_key_pred {α : Type} {k : Nat} {l : List (Nat × α)}
    {p : Nat × α → Bool} (h : ∀ q ∈ l, q.1 = k → p q = true) :
    alookup k (l.filter p) = alookup k l := by
  induction l with
  | nil => simp
  | cons q rest ih =>
    have ih' := ih (fun q hq => h q (List.mem_cons_of_mem _ hq))
    by_cases hqk : q.1 = k
    · have hp : p q = true := h q (List.mem_cons_self _ _) hqk
      simp [List.filter_cons, hp, alookup, hqk]
    · cases hp : p q with
      | true => simp [List.filter_cons, hp, alookup, hqk, ih']
      | false => simp [List.filter_cons, hp, alookup, hqk, ih']

lemma alookup_map_value {α : Type} {k : Nat} {base : List (Nat × α)}
    (g : Nat × α → α) :
    alookup k (base.map (fun p => (p.1, g p))) =
      match alookup k base with
      | some w => some (g (k, w))
      | none => none := by
  induction base with
  | nil => simp [alookup]
  | cons p rest ih =>
    by_cases h : p.1 = k
    · have hpk : p = (k, p.2) := by
        cases p; simp_all
      simp only [List.map_cons, alookup, h, if_pos]
      rw [hpk]
    · simp [alookup, h, ih]

lemma alookup_dictUpdate_mem {α : Type} {k : Nat} {v : α}
    {base upd : List (Nat × α)} (h : alookup k upd = some v) :
    alookup k (dictUpdate base upd) = some v := by
  unfold dictUpdate
  rw [alookup_append]
  rw [alookup_map_value (fun p => (alookup p.1 upd).getD p.2)]
  cases hb : alookup k base with
  | some w => simp [h]
  | none =>
    simp only
    rw [alookup_filter_of_key_pred (by intro q hq hqk; simp [hqk, hb])]
    exact h

lemma alookup_scale_imposed (lmbda : ℚ) (k : Nat)
    (il : List (Nat × (Option ℚ × Option ℚ))) :
    alookup k (scale_imposed lmbda il) =
      (alookup k il).map (fun v => (v.1.map (fun d => d * lmbda),
                                    v.2.map (fun d => d * lmbda))) := by
  induction il with
  | nil => simp [scale_imposed, alookup]
  | cons p rest ih =>
    by_cases h : p.1 = k
    · simp [scale_imposed, alookup, h]
    · simpa [scale_imposed, alookup, h] using ih

/-- Shared content of claims C5 and C10: after the displacement-control
update with load factor `lmbda`, the boundary-condition entry of any
imposed-displacement location holds exactly the `lmbda`-scaled original
components. -/
lemma apply_bc_lookup {lmbda : ℚ} {mdl : Mdl}
    {il : List (Nat × (Option ℚ × Option ℚ))} {line : Nat}
    {d1 d2 : Option ℚ} (him : mdl.imposed_displ = some il)
    (hnd : (il.map Prod.fst).Nodup) (hmem : (line, (d1, d2)) ∈ il) :
    alookup line (apply_displacement_bc lmbda mdl).displacement_bc =
      some (d1.map (fun d => d * lmbda), d2.map (fun d => d * lmbda)) := by
  unfold apply_displacement_bc
  rw [him]
  simp only
  apply alookup_dictUpdate_mem
  rw [alookup_scale_imposed, alookup_of_mem_nodup hmem hnd]
  rfl

/-- Frame part shared by C5/C10: the displacement-control update leaves
every model field except `displacement_bc` unchanged. -/
lemma apply_bc_frame (lmbda : ℚ) (mdl : Mdl) :
    (apply_displacement_bc lmbda mdl).imposed_displ = mdl.imposed_displ ∧
    (apply_displacement_bc lmbda mdl).num_dof = mdl.num_dof ∧
    (apply_displacement_bc lmbda mdl).elements = mdl.elements ∧
    (apply_displacement_bc lmbda mdl).num_quad_points = mdl.num_quad_points ∧
    (apply_displacement_bc lmbda mdl).material = mdl.material ∧
    (apply_displacement_bc lmbda mdl).thickness = mdl.thickness ∧
    (apply_displacement_bc lmbda mdl).elementObj = mdl.elementObj ∧
    (apply_displacement_bc lmbda mdl).phys_nodes = mdl.phys_nodes ∧
    (apply_displacement_bc lmbda mdl).node_dof = mdl.node_dof ∧
    (apply_displacement_bc lmbda mdl).neumann_load = mdl.neumann_load := by
  cases h : mdl.imposed_displ <;> simp [apply_displacement_bc, h]

lemma newton_pass_mdl2 {supd : SupdFun} {ctm : CtmFun} {linsolve : LinSolve}
    {f_ext : Nat → ℚ} {lmbda : ℚ} {mlocit : Nat} {comm : Committed}
    {u du : Nat → ℚ} {mdl : Mdl} {p : PassOut}
    (h : newton_pass supd ctm linsolve f_ext lmbda mlocit comm u du mdl = .ok p) :
    p.mdl2 = apply_displacement_bc lmbda mdl := by
  unfold newton_pass at h
  cases hls : local_solver supd ctm mdl mdl.num_dof du comm mlocit with
  | error e => rw [hls] at h; exact absurd h (by simp)
  | ok t =>
    obtain ⟨f, K, iv⟩ := t
    rw [hls] at h
    simp only [Except.ok.injEq] at h
    rw [← h]

/-! ## Configuration-error lemmas -/

lemma ls_elems_error (supd : SupdFun) (ctm : CtmFun) (mdl : Mdl)
    (du : Nat → ℚ) (comm : Committed) (mlocit : Nat) :
    ∀ (l : List Nat) (acc : (Nat → ℚ) × (Nat × Nat → ℚ) × IntVar),
      (∃ eid, eid ∈ l ∧ ¬ has_props mdl eid) →
      ls_elems supd ctm mdl du comm mlocit l acc = .error missing_prop_msg := by
  intro l
  induction l with
  | nil => intro acc h; simp at h
  | cons eid rest ih =>
    intro acc h
    obtain ⟨f, K, iv⟩ := acc
    obtain ⟨e0, he0, hne⟩ := h
    cases hH : H_of mdl eid with
    | none => simp [ls_elems, hH]
    | some Hv =>
      cases hS : sig_y0_of mdl eid with
      | none => simp [ls_elems, hH, hS]
      | some Sv =>
        have hprops : has_props mdl eid := ⟨by simp [hH], by simp [hS]⟩
        have he0' : e0 ∈ rest := by
          rcases List.mem_cons.mp he0 with h' | h'
          · exact absurd (h' ▸ hprops) hne
          · exact h'
        simp only [ls_elems, hH, hS]
        exact ih _ ⟨e0, he0', hne⟩

/-! ## Solution-history shape lemmas -/

lemma increment_step_displ_dims {supd : SupdFun} {ctm : CtmFun}
    {linsolve : LinSolve} {maxit : Nat} {tol : ℚ} {mlocit : Nat}
    {f_ext_bar : Nat → ℚ} {incr_id : Nat} {lmbda : ℚ} {st st2 : RunState}
    (h : increment_step supd ctm linsolve maxit tol mlocit f_ext_bar incr_id
        lmbda st = .ok st2) :
    st2.displ.rows = st.displ.rows ∧ st2.displ.cols = st.displ.cols := by
  unfold increment_step at h
  cases hn : newton_loop supd ctm linsolve (scaled_f_ext lmbda f_ext_bar) lmbda
      tol mlocit maxit 0 st.u (fun _ => 0) st.comm st.mdl with
  | converged iters u2 du2 iv errSq mdl2 =>
    rw [hn] at h
    simp only [Except.ok.injEq] at h
    rw [← h]
    exact ⟨rfl, rfl⟩
  | diverged kRep errSq u2 mdl2 => rw [hn] at h; exact absurd h (by simp)
  | propErr msg => rw [hn] at h; exact absurd h (by simp)
  | nameFault => rw [hn] at h; exact absurd h (by simp)

lemma solver_loop_displ_dims {supd : SupdFun} {ctm : CtmFun}
    {linsolve : LinSolve} {maxit : Nat} {tol : ℚ} {mlocit : Nat}
    {f_ext_bar : Nat → ℚ} :
    ∀ (l : List ℚ) (i : Nat) (st st2 : RunState),
      solver_loop supd ctm linsolve maxit tol mlocit f_ext_bar l i st = .ok st2 →
      st2.displ.rows = st.displ.rows ∧ st2.displ.cols = st.displ.cols := by
  intro l
  induction l with
  | nil =>
    intro i st st2 h
    simp only [solver_loop, Except.ok.injEq] at h
    rw [← h]
    exact ⟨rfl, rfl⟩
  | cons lmbda rest ih =>
    intro i st st2 h
    simp only [solver_loop] at h
    cases hstep : increment_step supd ctm linsolve maxit tol mlocit f_ext_bar
        i lmbda st with
    | ok st1 =>
      rw [hstep] at h
      obtain ⟨h1, h2⟩ := increment_step_displ_dims hstep
      obtain ⟨h3, h4⟩ := ih (i + 1) st1 st2 h
      exact ⟨h3.trans h1, h4.trans h2⟩
    | error e => rw [hstep] at h; exact absurd h (by simp)

/-! ## Claim theorems (configuration and defaults) -/

/-- C8: configuration errors are fatal at or before first use —
`Material.__init__` raises `Missing E` when `E` is absent and `Missing nu`
when `nu` is absent, and `local_solver` raises the missing-property
exception (and hence returns no state at all) whenever some element of the
model lacks an `H` or `sig_y0` entry for its owning surface. -/
theorem config_errors_fatal :
    (∀ (case : String) (md : MatDic), md.E = none →
      material_new case md = .error "Missing E") ∧
    (∀ (case : String) (md : MatDic) (e : List (Nat × ℚ)), md.E = some e →
      md.nu = none → material_new case md = .error "Missing nu") ∧
    (∀ (supd : SupdFun) (ctm : CtmFun) (mdl : Mdl) (ndof : Nat)
       (du : Nat → ℚ) (comm : Committed) (mlocit : Nat),
      (∃ eid, eid ∈ mdl.elements ∧ ¬ has_props mdl eid) →
      local_solver supd ctm mdl ndof du comm mlocit = .error missing_prop_msg) := by
  refine ⟨?_, ?_, ?_⟩
  · intro case md h
    unfold material_new
    rw [h]
  · intro case md e hE hnu
    unfold material_new
    rw [hE, hnu]
  · intro supd ctm mdl ndof du comm mlocit h
    exact ls_elems_error supd ctm mdl du comm mlocit mdl.elements _ h

/-- C9: recognized defaults — the default load program is
`np.linspace(0, 1, 10)` (ten equal steps from 0 to 1), the default
`max_num_iter` is 5, the default `tol` is `1e-6`, the default
`max_num_local_iter` is 100, the default model thickness is 1.0, and a
successful `solver` run returns the dense solution history with one row per
dof and one column per load increment together with the load program. -/
theorem recognized_defaults :
    resolve_load_increment none default_num_load_increments = linspace 0 1 10 ∧
    linspace 0 1 10 =
      [0, 1/9, 2/9, 1/3, 4/9, 5/9, 2/3, 7/9, 8/9, 1] ∧
    default_max_num_iter = 5 ∧
    default_tol = 1 / 1000000 ∧
    default_max_num_local_iter = 100 ∧
    default_thickness = 1 ∧
    (∀ (supd : SupdFun) (ctm : CtmFun) (linsolve : LinSolve) (mdl : Mdl)
       (li : Option (List ℚ)) (n maxit : Nat) (tol : ℚ) (mlocit : Nat)
       (d : Displ) (prog : List ℚ) (st : RunState),
      solver supd ctm linsolve mdl li n maxit tol mlocit = .ok (d, prog, st) →
      d.rows = mdl.num_dof ∧ d.cols = (resolve_load_increment li n).length ∧
        prog = resolve_load_increment li n) := by
  refine ⟨rfl, by norm_num [linspace, List.range_succ], rfl, rfl, rfl, rfl, ?_⟩
  intro supd ctm linsolve mdl li n maxit tol mlocit d prog st h
  unfold solver at h
  dsimp only at h
  cases hrun : solver_loop supd ctm linsolve maxit tol mlocit
      (external_load_vector mdl) (resolve_load_increment li n) 0
      { u := fun _ => 0
        comm := init_comm mdl
        mdl := mdl
        displ := ⟨mdl.num_dof, (resolve_load_increment li n).length, fun _ _ => 0⟩
        emitted := [] } with
  | ok stf =>
    rw [hrun] at h
    simp only [Except.ok.injEq, Prod.mk.injEq] at h
    obtain ⟨hd, hli, _⟩ := h
    obtain ⟨hr, hc⟩ := solver_loop_displ_dims _ _ _ _ hrun
    exact ⟨hd ▸ hr, hd ▸ hc, hli.symm⟩
  | error e => rw [hrun] at h; exact absurd h (by simp)

/-! ## Claim theorems (boundary-condition scaling and the emitted field) -/

/-- Committed Gauss-point plastic strains of a single four-point element
whose integration-point values are `0, 0, 0, 1`: the concrete input on
which the emitted field and the element average differ. -/
def c4_ebp : Nat × Nat → ℚ := fun k => if k = (1, 3) then 1 else 0

/-- C4: the scalar field built at `incremental.py:151-153` and emitted as
`Cummulative plastic strain` is **not** the element average of the
committed Gauss-point plastic strains: for the element whose four committed
values are `0, 0, 0, 1` the dict comprehension (whose `gp` loop overwrites
the `eid` key) emits the last Gauss point's value `1`, while the average
over the element's integration points is `1/4`. -/
theorem plastic_strain_field_not_element_average :
    alookup 1 (eps_bar_p_avg_field [1] c4_ebp) = some 1 ∧
    eps_bar_p_true_avg 4 c4_ebp 1 = 1 / 4 ∧
    alookup 1 (eps_bar_p_avg_field [1] c4_ebp) ≠
      some (eps_bar_p_true_avg 4 c4_ebp 1) := by
  have h1 : alookup 1 (eps_bar_p_avg_field [1] c4_ebp) = some 1 := by
    norm_num [eps_bar_p_avg_field, List.range_succ, dictInsert, alookup, c4_ebp]
  have h2 : eps_bar_p_true_avg 4 c4_ebp 1 = 1 / 4 := by
    norm_num [eps_bar_p_true_avg, List.range_succ, c4_ebp]
  refine ⟨h1, h2, ?_⟩
  rw [h1, h2]
  intro h
  have := Option.some.inj h
  norm_num at this

/-- C5: in the displacement-control update run by every Newton iteration,
each imposed-displacement constraint is written into the boundary
conditions with every non-`None` component equal to the load factor times
the originally configured component (and `None` components stay `None`);
moreover every successful Newton iteration's model is exactly the
`apply_displacement_bc` update of its input model. -/
theorem imposed_displacement_scaled_by_load_factor :
    ∀ (lmbda : ℚ) (mdl : Mdl) (il : List (Nat × (Option ℚ × Option ℚ)))
      (line : Nat) (d1 d2 : Option ℚ),
      mdl.imposed_displ = some il →
      (il.map Prod.fst).Nodup →
      (line, (d1, d2)) ∈ il →
      alookup line (apply_displacement_bc lmbda mdl).displacement_bc =
        some (d1.map (fun d => d * lmbda), d2.map (fun d => d * lmbda)) ∧
      (∀ (supd : SupdFun) (ctm : CtmFun) (linsolve : LinSolve)
         (f_ext : Nat → ℚ) (mlocit : Nat) (comm : Committed)
         (u du : Nat → ℚ) (p : PassOut),
        newton_pass supd ctm linsolve f_ext lmbda mlocit comm u du mdl = .ok p →
        p.mdl2 = apply_displacement_bc lmbda mdl) := by
  intro lmbda mdl il line d1 d2 him hnd hmem
  exact ⟨apply_bc_lookup him hnd hmem,
         fun supd ctm linsolve f_ext mlocit comm u du p h => newton_pass_mdl2 h⟩

/-- C10: the displacement-control update never mutates
`model.imposed_displ` (nor any model field other than `displacement_bc`),
so the scaling never compounds: applying the update for a second load
factor after a first one still yields exactly `original * lmbda2`. -/
theorem imposed_displ_never_mutated :
    ∀ (l1 l2 : ℚ) (mdl : Mdl),
      (apply_displacement_bc l1 mdl).imposed_displ = mdl.imposed_displ ∧
      (apply_displacement_bc l1 mdl).num_dof = mdl.num_dof ∧
      (apply_displacement_bc l1 mdl).elements = mdl.elements ∧
      (apply_displacement_bc l1 mdl).num_quad_points = mdl.num_quad_points ∧
      (apply_displacement_bc l1 mdl).material = mdl.material ∧
      (apply_displacement_bc l1 mdl).thickness = mdl.thickness ∧
      (apply_displacement_bc l1 mdl).elementObj = mdl.elementObj ∧
      (apply_displacement_bc l1 mdl).phys_nodes = mdl.phys_nodes ∧
      (apply_displacement_bc l1 mdl).node_dof = mdl.node_dof ∧
      (apply_displacement_bc l1 mdl).neumann_load = mdl.neumann_load ∧
      (∀ (il : List (Nat × (Option ℚ × Option ℚ))) (line : Nat)
         (d1 d2 : Option ℚ),
        mdl.imposed_displ = some il →
        (il.map Prod.fst).Nodup →
        (line, (d1, d2)) ∈ il →
        alookup line
            (apply_displacement_bc l2 (apply_displacement_bc l1 mdl)).displacement_bc =
          some (d1.map (fun d => d * l2), d2.map (fun d => d * l2))) := by
  intro l1 l2 mdl
  obtain ⟨h1, h2, h3, h4, h5, h6, h7, h8, h9, h10⟩ := apply_bc_frame l1 mdl
  refine ⟨h1, h2, h3, h4, h5, h6, h7, h8, h9, h10, ?_⟩
  intro il line d1 d2 him hnd hmem
  exact apply_bc_lookup (h1.trans him) hnd hmem

/-! ## Concrete fixture models for the witnesses -/

/-- Tiny concrete element: two dofs, surface tag 7, two unit-weight Gauss
points. -/
def elemW : Element :=
  { dof := [1, 2], physical_surf := 7, E := 1000, nu := 0, thickness := 1,
    gauss := [(1, (0, 0)), (1, (0, 0))],
    B := fun _ => [[1, 0], [0, 1], [0, 0]], dJ := fun _ => 1 }

/-- Concrete material with all four per-surface properties for surface 7. -/
def matW : Material :=
  { E := [(7, 1000)], nu := [(7, 0)], H := some [(7, 10)],
    sig_y0 := some [(7, 5)], case := "stress" }

/-- Concrete one-element model with an imposed displacement on line 4. -/
def mdlW : Mdl :=
  { num_dof := 2, elements := [1], num_quad_points := fun _ => 1,
    material := matW,
    imposed_displ := some [(4, (some 2, none))],
    displacement_bc := [(4, (none, none))],
    thickness := 1, elementObj := fun _ => elemW,
    phys_nodes := fun _ => [], node_dof := fun n => (2 * n - 2, 2 * n - 1),
    neumann_load := fun _ => 0 }

/-- `mdlW` with the hardening-modulus attribute absent. -/
def mdlNoH : Mdl := { mdlW with material := { matW with H := none } }

/-- Trivial concrete local constitutive solver for witnesses. -/
def supdW : SupdFun := fun _ _ _ _ _ _ _ => ⟨[0, 0, 0], [0, 0, 0], 0, 0, false⟩

/-- Trivial concrete consistent tangent for witnesses. -/
def ctmW : CtmFun := fun _ _ _ _ _ _ => [[0, 0, 0], [0, 0, 0], [0, 0, 0]]

/-- C8 witness: applying `config_errors_fatal` to the concrete missing-`E`
dictionary and to the concrete model whose surface lacks `H`. -/
theorem config_errors_fatal_instance :
    (∃ eid, eid ∈ mdlNoH.elements ∧ ¬ has_props mdlNoH eid) ∧
    material_new "stress" ⟨none, none, none, none⟩ = .error "Missing E" ∧
    material_new "stress" ⟨some [(7, 1000)], none, none, none⟩ =
      .error "Missing nu" ∧
    local_solver supdW ctmW mdlNoH 2 (fun _ => 0) (init_comm mdlNoH) 100 =
      .error missing_prop_msg := by
  have hne : ¬ has_props mdlNoH 1 := by
    intro h
    simpa [has_props, H_of, mdlNoH] using h.1
  refine ⟨⟨1, by simp [mdlNoH, mdlW], hne⟩,
          (config_errors_fatal.1 "stress" ⟨none, none, none, none⟩ rfl),
          (config_errors_fatal.2.1 "stress" ⟨some [(7, 1000)], none, none, none⟩
            [(7, 1000)] rfl rfl),
          config_errors_fatal.2.2 supdW ctmW mdlNoH 2 (fun _ => 0)
            (init_comm mdlNoH) 100 ⟨1, by simp [mdlNoH, mdlW], hne⟩⟩

/-- C5 witness: for `mdlW` with load factor 3, line 4's boundary-condition
entry becomes `(some 6, none)` = `3 ·(some 2, none)`. -/
theorem imposed_displacement_scaled_witness :
    mdlW.imposed_displ = some [(4, (some 2, none))] ∧
    (([((4 : Nat), ((some (2 : ℚ)), (none : Option ℚ)))].map Prod.fst).Nodup) ∧
    alookup 4 (apply_displacement_bc 3 mdlW).displacement_bc =
      some (some 6, none) := by
  have h := (imposed_displacement_scaled_by_load_factor 3 mdlW
    [(4, (some 2, none))] 4 (some 2) none rfl (by simp) (by simp)).1
  refine ⟨rfl, by simp, ?_⟩
  rw [h]
  norm_num

/-! ## Scatter-by-summation lemmas -/

lemma filter_zip_eq_nil {κ : Type} [DecidableEq κ] {i : κ} {as : List κ}
    (h : i ∉ as) (vs : List ℚ) :
    (as.zip vs).filter (fun p => decide (p.1 = i)) = [] := by
  rw [List.filter_eq_nil_iff]
  intro p hp
  have := (List.of_mem_zip hp).1
  simp only [decide_eq_true_eq]
  intro he
  exact h (he ▸ this)

lemma scatterAdd_eq_contrib {κ : Type} [DecidableEq κ] (f : κ → ℚ) :
    ∀ (ids : List κ) (vals : List ℚ) (i : κ), ids.Nodup →
      scatterAdd f ids vals i = f i + scatterContrib ids vals i := by
  intro ids
  induction ids with
  | nil => intro vals i _; simp [scatterAdd, scatterContrib]
  | cons a as ih =>
    intro vals i hnd
    cases vals with
    | nil => simp [scatterAdd, scatterContrib]
    | cons v vs =>
      rw [List.nodup_cons] at hnd
      by_cases hai : a = i
      · have hnil : (as.zip vs).filter (fun p => decide (p.1 = i)) = [] :=
          filter_zip_eq_nil (hai ▸ hnd.1) vs
        simp [scatterAdd, scatterContrib, List.filter_cons, hai, hnil]
      · simp only [scatterAdd, scatterContrib, List.zip_cons_cons,
          List.filter_cons, decide_eq_true_eq, hai]
        simpa [scatterAdd, scatterContrib] using ih vs i hnd.2

lemma elem_id_m_nodup {e : Element} (h : (elem_id_v e).Nodup) :
    (elem_id_m e).Nodup := by
  unfold elem_id_m
  exact h.product h

lemma gp_loop_fk_iv_indep (supd : SupdFun) (ctm : CtmFun) (e : Element)
    (eid : Nat) (H sy : ℚ) (mlocit : Nat) (comm : Committed) (du_ele : List ℚ) :
    ∀ (gs : List (Nat × (ℚ × (ℚ × ℚ)))) (fe : List ℚ) (ke : List (List ℚ))
      (iv1 iv2 : IntVar),
      (gp_loop supd ctm e eid H sy mlocit comm du_ele gs (fe, ke, iv1)).1 =
        (gp_loop supd ctm e eid H sy mlocit comm du_ele gs (fe, ke, iv2)).1 ∧
      (gp_loop supd ctm e eid H sy mlocit comm du_ele gs (fe, ke, iv1)).2.1 =
        (gp_loop supd ctm e eid H sy mlocit comm du_ele gs (fe, ke, iv2)).2.1 := by
  intro gs
  induction gs with
  | nil => intro fe ke iv1 iv2; exact ⟨rfl, rfl⟩
  | cons g rest ih =>
    intro fe ke iv1 iv2
    obtain ⟨gp_id, w, gp⟩ := g
    simpa only [gp_loop] using ih _ _ _ _

/-- Element contributions actually accumulated by `ls_elems` coincide with
the stand-alone `elem_contrib` when the material properties resolve. -/
lemma gp_loop_eq_elem_contrib {supd : SupdFun} {ctm : CtmFun} {mdl : Mdl}
    {du : Nat → ℚ} {comm : Committed} {mlocit : Nat} {eid : Nat} {H sy : ℚ}
    (hH : H_of mdl eid = some H) (hS : sig_y0_of mdl eid = some sy) (iv : IntVar) :
    ((gp_loop supd ctm (mdl.elementObj eid) eid H sy mlocit comm
        (du_gather du (mdl.elementObj eid)) (mdl.elementObj eid).gauss.enum
        (List.replicate 8 0, List.replicate 8 (List.replicate 8 0), iv)).1,
     (gp_loop supd ctm (mdl.elementObj eid) eid H sy mlocit comm
        (du_gather du (mdl.elementObj eid)) (mdl.elementObj eid).gauss.enum
        (List.replicate 8 0, List.replicate 8 (List.replicate 8 0), iv)).2.1) =
      elem_contrib supd ctm mdl du comm mlocit eid := by
  unfold elem_contrib
  rw [hH, hS]
  obtain ⟨h1, h2⟩ := gp_loop_fk_iv_indep supd ctm (mdl.elementObj eid) eid H sy
    mlocit comm (du_gather du (mdl.elementObj eid))
    (mdl.elementObj eid).gauss.enum
    (List.replicate 8 0) (List.replicate 8 (List.replicate 8 0)) iv iv0
  simp only [Option.getD_some]
  exact Prod.ext h1 h2

lemma ls_elems_sum {supd : SupdFun} {ctm : CtmFun} {mdl : Mdl}
    {du : Nat → ℚ} {comm : Committed} {mlocit : Nat} :
    ∀ (l : List Nat), (∀ eid ∈ l, has_props mdl eid) →
      (∀ eid ∈ l, (elem_id_v (mdl.elementObj eid)).Nodup) →
      ∀ (f : Nat → ℚ) (K : Nat × Nat → ℚ) (iv : IntVar)
        (f2 : Nat → ℚ) (K2 : Nat × Nat → ℚ) (iv2 : IntVar),
        ls_elems supd ctm mdl du comm mlocit l (f, K, iv) = .ok (f2, K2, iv2) →
        (∀ i, f2 i = f i + (l.map (fun eid =>
          scatterContrib (elem_id_v (mdl.elementObj eid))
            (elem_contrib supd ctm mdl du comm mlocit eid).1 i)).sum) ∧
        (∀ pq, K2 pq = K pq + (l.map (fun eid =>
          scatterContrib (elem_id_m (mdl.elementObj eid))
            (elem_contrib supd ctm mdl du comm mlocit eid).2.flatten pq)).sum) := by
  intro l
  induction l with
  | nil =>
    intro _ _ f K iv f2 K2 iv2 h
    simp only [ls_elems, Except.ok.injEq, Prod.mk.injEq] at h
    obtain ⟨hf, hK, _⟩ := h
    constructor
    · intro i; rw [← hf]; simp
    · intro pq; rw [← hK]; simp
  | cons eid rest ih =>
    intro hprops hnd f K iv f2 K2 iv2 h
    obtain ⟨H, hH⟩ := Option.isSome_iff_exists.mp (hprops eid (by simp)).1
    obtain ⟨sy, hS⟩ := Option.isSome_iff_exists.mp (hprops eid (by simp)).2
    rcases hg : gp_loop supd ctm (mdl.elementObj eid) eid H sy mlocit comm
        (du_gather du (mdl.elementObj eid)) (mdl.elementObj eid).gauss.enum
        (List.replicate 8 0, List.replicate 8 (List.replicate 8 0),
         { iv with sig_ele := upd1 iv.sig_ele eid (List.replicate 3 0) })
      with ⟨fe, ke, ivx⟩
    have hc := @gp_loop_eq_elem_contrib supd ctm mdl du comm mlocit eid H sy hH hS
      { iv with sig_ele := upd1 iv.sig_ele eid (List.replicate 3 0) }
    rw [hg] at hc
    have hstep : ls_elems supd ctm mdl du comm mlocit (eid :: rest) (f, K, iv) =
        ls_elems supd ctm mdl du comm mlocit rest
          (scatterAdd f (elem_id_v (mdl.elementObj eid))
            (elem_contrib supd ctm mdl du comm mlocit eid).1,
           scatterAdd K (elem_id_m (mdl.elementObj eid))
            (elem_contrib supd ctm mdl du comm mlocit eid).2.flatten, ivx) := by
      simp only [ls_elems, hH, hS, hg, ← hc]
    rw [hstep] at h
    obtain ⟨ihf, ihK⟩ := ih (fun e he => hprops e (by simp [he]))
      (fun e he => hnd e (by simp [he])) _ _ _ _ _ _ h
    constructor
    · intro i
      rw [ihf i, scatterAdd_eq_contrib f _ _ i (hnd eid (by simp))]
      simp [add_assoc]
    · intro pq
      rw [ihK pq, scatterAdd_eq_contrib K _ _ pq (elem_id_m_nodup (hnd eid (by simp)))]
      simp [add_assoc]

lemma ls_elems_ok {supd : SupdFun} {ctm : CtmFun} {mdl : Mdl}
    {du : Nat → ℚ} {comm : Committed} {mlocit : Nat} :
    ∀ (l : List Nat), (∀ eid ∈ l, has_props mdl eid) →
      ∀ (acc : (Nat → ℚ) × (Nat × Nat → ℚ) × IntVar),
        ∃ t, ls_elems supd ctm mdl du comm mlocit l acc = .ok t := by
  intro l
  induction l with
  | nil => intro _ acc; exact ⟨acc, rfl⟩
  | cons eid rest ih =>
    intro hprops acc
    obtain ⟨f, K, iv⟩ := acc
    obtain ⟨H, hH⟩ := Option.isSome_iff_exists.mp (hprops eid (by simp)).1
    obtain ⟨sy, hS⟩ := Option.isSome_iff_exists.mp (hprops eid (by simp)).2
    rcases hg : gp_loop supd ctm (mdl.elementObj eid) eid H sy mlocit comm
        (du_gather du (mdl.elementObj eid)) (mdl.elementObj eid).gauss.enum
        (List.replicate 8 0, List.replicate 8 (List.replicate 8 0),
         { iv with sig_ele := upd1 iv.sig_ele eid (List.replicate 3 0) })
      with ⟨fe, ke, ivx⟩
    obtain ⟨t, ht⟩ := ih (fun e he => hprops e (by simp [he]))
      (scatterAdd f (elem_id_v (mdl.elementObj eid)) fe,
       scatterAdd K (elem_id_m (mdl.elementObj eid)) ke.flatten, ivx)
    refine ⟨t, ?_⟩
    simp only [ls_elems, hH, hS, hg]
    exact ht

/-- C6: scatter by summation — on a successful assembly pass the global
internal-force vector and tangent matrix returned by `local_solver` equal,
at every entry, the sum over the model's elements of that element's
scattered contribution (so elements sharing a dof accumulate), starting
from the zero arrays allocated at `incremental.py:224-225`. -/
theorem scatter_by_summation :
    ∀ (supd : SupdFun) (ctm : CtmFun) (mdl : Mdl) (ndof : Nat) (du : Nat → ℚ)
      (comm : Committed) (mlocit : Nat),
      (∀ eid ∈ mdl.elements, has_props mdl eid) →
      (∀ eid ∈ mdl.elements, (elem_id_v (mdl.elementObj eid)).Nodup) →
      (∀ i, ls_fint supd ctm mdl ndof du comm mlocit i =
        (mdl.elements.map (fun eid =>
          scatterContrib (elem_id_v (mdl.elementObj eid))
            (elem_contrib supd ctm mdl du comm mlocit eid).1 i)).sum) ∧
      (∀ pq, ls_ktan supd ctm mdl ndof du comm mlocit pq =
        (mdl.elements.map (fun eid =>
          scatterContrib (elem_id_m (mdl.elementObj eid))
            (elem_contrib supd ctm mdl du comm mlocit eid).2.flatten pq)).sum) := by
  intro supd ctm mdl ndof du comm mlocit hprops hnd
  obtain ⟨⟨f2, K2, iv2⟩, hok⟩ := ls_elems_ok mdl.elements hprops
    (fun _ => 0, fun _ => 0, iv0)
  obtain ⟨hf, hK⟩ := ls_elems_sum mdl.elements hprops hnd
    (fun _ => 0) (fun _ => 0) iv0 f2 K2 iv2 hok
  have hfint : ls_fint supd ctm mdl ndof du comm mlocit = f2 := by
    unfold ls_fint local_solver
    rw [hok]
  have hktan : ls_ktan supd ctm mdl ndof du comm mlocit = K2 := by
    unfold ls_ktan local_solver
    rw [hok]
  constructor
  · intro i
    rw [hfint, hf i, zero_add]
  · intro pq
    rw [hktan, hK pq, zero_add]

/-! ## Lagged-tangent lemmas -/

/-- Agreement of transient dictionaries up to the `dgamma` component. -/
def ivRel (a b : IntVar) : Prop :=
  a.eps_e = b.eps_e ∧ a.eps_bar_p = b.eps_bar_p ∧ a.sig_ele = b.sig_ele

/-- Agreement of `local_solver` results up to the transient `dgamma`
dictionary. -/
def lsRel (r1 r2 : Except String ((Nat → ℚ) × (Nat × Nat → ℚ) × IntVar)) : Prop :=
  match r1, r2 with
  | .error e1, .error e2 => e1 = e2
  | .ok (f1, K1, iv1), .ok (f2, K2, iv2) => f1 = f2 ∧ K1 = K2 ∧ ivRel iv1 iv2
  | _, _ => False

/-- Agreement of `local_solver` results on the internal force and the whole
transient state, with the tangent left free. -/
def lsRelB (r1 r2 : Except String ((Nat → ℚ) × (Nat × Nat → ℚ) × IntVar)) : Prop :=
  match r1, r2 with
  | .error e1, .error e2 => e1 = e2
  | .ok (f1, _, iv1), .ok (f2, _, iv2) => f1 = f2 ∧ iv1 = iv2
  | _, _ => False

lemma gp_loop_supd_agree {supd1 supd2 : SupdFun} {ctm : CtmFun}
    (hsupd : ∀ E nu H sy eet ebt ml,
      (supd1 E nu H sy eet ebt ml).sig = (supd2 E nu H sy eet ebt ml).sig ∧
      (supd1 E nu H sy eet ebt ml).eps_e = (supd2 E nu H sy eet ebt ml).eps_e ∧
      (supd1 E nu H sy eet ebt ml).eps_bar_p = (supd2 E nu H sy eet ebt ml).eps_bar_p ∧
      (supd1 E nu H sy eet ebt ml).ep_flag = (supd2 E nu H sy eet ebt ml).ep_flag)
    (e : Element) (eid : Nat) (H sy : ℚ) (ml : Nat) (comm : Committed)
    (du_ele : List ℚ) :
    ∀ (gs : List (Nat × (ℚ × (ℚ × ℚ)))) (fe : List ℚ) (ke : List (List ℚ))
      (iv1 iv2 : IntVar), ivRel iv1 iv2 →
      (gp_loop supd1 ctm e eid H sy ml comm du_ele gs (fe, ke, iv1)).1 =
        (gp_loop supd2 ctm e eid H sy ml comm du_ele gs (fe, ke, iv2)).1 ∧
      (gp_loop supd1 ctm e eid H sy ml comm du_ele gs (fe, ke, iv1)).2.1 =
        (gp_loop supd2 ctm e eid H sy ml comm du_ele gs (fe, ke, iv2)).2.1 ∧
      ivRel (gp_loop supd1 ctm e eid H sy ml comm du_ele gs (fe, ke, iv1)).2.2
        (gp_loop supd2 ctm e eid H sy ml comm du_ele gs (fe, ke, iv2)).2.2 := by
  intro gs
  induction gs with
  | nil => intro fe ke iv1 iv2 hrel; exact ⟨rfl, rfl, hrel⟩
  | cons g rest ih =>
    intro fe ke iv1 iv2 hrel
    obtain ⟨gp_id, w, gp⟩ := g
    obtain ⟨h1, h2, h3⟩ := hrel
    obtain ⟨hsig, hee, hbp, hfl⟩ := hsupd e.E e.nu H sy
      (addV (comm.eps_e (eid, gp_id)) (matVec (e.B gp) du_ele))
      (comm.eps_bar_p (eid, gp_id)) ml
    simp only [gp_loop, ← hsig, ← hee, ← hbp, ← hfl, h1, h2, h3]
    exact ih _ _ _ _ ⟨rfl, rfl, rfl⟩

lemma ls_elems_supd_agree {supd1 supd2 : SupdFun} {ctm : CtmFun} {mdl : Mdl}
    {du : Nat → ℚ} {comm : Committed} {mlocit : Nat}
    (hsupd : ∀ E nu H sy eet ebt ml,
      (supd1 E nu H sy eet ebt ml).sig = (supd2 E nu H sy eet ebt ml).sig ∧
      (supd1 E nu H sy eet ebt ml).eps_e = (supd2 E nu H sy eet ebt ml).eps_e ∧
      (supd1 E nu H sy eet ebt ml).eps_bar_p = (supd2 E nu H sy eet ebt ml).eps_bar_p ∧
      (supd1 E nu H sy eet ebt ml).ep_flag = (supd2 E nu H sy eet ebt ml).ep_flag) :
    ∀ (l : List Nat) (f : Nat → ℚ) (K : Nat × Nat → ℚ) (iv1 iv2 : IntVar),
      ivRel iv1 iv2 →
      lsRel (ls_elems supd1 ctm mdl du comm mlocit l (f, K, iv1))
        (ls_elems supd2 ctm mdl du comm mlocit l (f, K, iv2)) := by
  intro l
  induction l with
  | nil => intro f K iv1 iv2 hrel; exact ⟨rfl, rfl, hrel⟩
  | cons eid rest ih =>
    intro f K iv1 iv2 hrel
    cases hH : H_of mdl eid with
    | none => simp only [ls_elems, hH]; rfl
    | some H =>
      cases hS : sig_y0_of mdl eid with
      | none => simp only [ls_elems, hH, hS]; rfl
      | some sy =>
        have hrel1 : ivRel
            { iv1 with sig_ele := upd1 iv1.sig_ele eid (List.replicate 3 0) }
            { iv2 with sig_ele := upd1 iv2.sig_ele eid (List.replicate 3 0) } := by
          obtain ⟨h1, h2, h3⟩ := hrel
          exact ⟨h1, h2, by rw [h3]⟩
        rcases hg1 : gp_loop supd1 ctm (mdl.elementObj eid) eid H sy mlocit comm
            (du_gather du (mdl.elementObj eid)) (mdl.elementObj eid).gauss.enum
            (List.replicate 8 0, List.replicate 8 (List.replicate 8 0),
             { iv1 with sig_ele := upd1 iv1.sig_ele eid (List.replicate 3 0) })
          with ⟨fe1, ke1, ivx1⟩
        rcases hg2 : gp_loop supd2 ctm (mdl.elementObj eid) eid H sy mlocit comm
            (du_gather du (mdl.elementObj eid)) (mdl.elementObj eid).gauss.enum
            (List.replicate 8 0, List.replicate 8 (List.replicate 8 0),
             { iv2 with sig_ele := upd1 iv2.sig_ele eid (List.replicate 3 0) })
          with ⟨fe2, ke2, ivx2⟩
        have hcomp := @gp_loop_supd_agree supd1 supd2 ctm hsupd
          (mdl.elementObj eid) eid H sy mlocit comm
          (du_gather du (mdl.elementObj eid)) (mdl.elementObj eid).gauss.enum
          (List.replicate 8 0) (List.replicate 8 (List.replicate 8 0)) _ _ hrel1
        rw [hg1, hg2] at hcomp
        obtain ⟨hfe, hke, hivx⟩ := hcomp
        simp only at hfe hke hivx
        subst hfe
        subst hke
        simp only [ls_elems, hH, hS, hg1, hg2]
        exact ih _ _ _ _ hivx

lemma gp_loop_comm_dgamma_indep {supd : SupdFun} {ctm : CtmFun}
    {comm comm2 : Committed} (heps : comm2.eps_e = comm.eps_e)
    (hbar : comm2.eps_bar_p = comm.eps_bar_p) (e : Element) (eid : Nat)
    (H sy : ℚ) (ml : Nat) (du_ele : List ℚ) :
    ∀ (gs : List (Nat × (ℚ × (ℚ × ℚ)))) (fe : List ℚ) (ke ke2 : List (List ℚ))
      (iv : IntVar),
      (gp_loop supd ctm e eid H sy ml comm du_ele gs (fe, ke, iv)).1 =
        (gp_loop supd ctm e eid H sy ml comm2 du_ele gs (fe, ke2, iv)).1 ∧
      (gp_loop supd ctm e eid H sy ml comm du_ele gs (fe, ke, iv)).2.2 =
        (gp_loop supd ctm e eid H sy ml comm2 du_ele gs (fe, ke2, iv)).2.2 := by
  intro gs
  induction gs with
  | nil => intro fe ke ke2 iv; exact ⟨rfl, rfl⟩
  | cons g rest ih =>
    intro fe ke ke2 iv
    obtain ⟨gp_id, w, gp⟩ := g
    simp only [gp_loop, heps, hbar]
    exact ih _ _ _ _

lemma ls_elems_comm_dgamma_indep {supd : SupdFun} {ctm : CtmFun} {mdl : Mdl}
    {du : Nat → ℚ} {comm comm2 : Committed} {mlocit : Nat}
    (heps : comm2.eps_e = comm.eps_e) (hbar : comm2.eps_bar_p = comm.eps_bar_p) :
    ∀ (l : List Nat) (f : Nat → ℚ) (K K2 : Nat × Nat → ℚ) (iv : IntVar),
      lsRelB (ls_elems supd ctm mdl du comm mlocit l (f, K, iv))
        (ls_elems supd ctm mdl du comm2 mlocit l (f, K2, iv)) := by
  intro l
  induction l with
  | nil => intro f K K2 iv; exact ⟨rfl, rfl⟩
  | cons eid rest ih =>
    intro f K K2 iv
    cases hH : H_of mdl eid with
    | none => simp only [ls_elems, hH]; rfl
    | some H =>
      cases hS : sig_y0_of mdl eid with
      | none => simp only [ls_elems, hH, hS]; rfl
      | some sy =>
        rcases hg1 : gp_loop supd ctm (mdl.elementObj eid) eid H sy mlocit comm
            (du_gather du (mdl.elementObj eid)) (mdl.elementObj eid).gauss.enum
            (List.replicate 8 0, List.replicate 8 (List.replicate 8 0),
             { iv with sig_ele := upd1 iv.sig_ele eid (List.replicate 3 0) })
          with ⟨fe1, ke1, ivx1⟩
        rcases hg2 : gp_loop supd ctm (mdl.elementObj eid) eid H sy mlocit comm2
            (du_gather du (mdl.elementObj eid)) (mdl.elementObj eid).gauss.enum
            (List.replicate 8 0, List.replicate 8 (List.replicate 8 0),
             { iv with sig_ele := upd1 iv.sig_ele eid (List.replicate 3 0) })
          with ⟨fe2, ke2, ivx2⟩
        have hcomp := @gp_loop_comm_dgamma_indep supd ctm comm comm2 heps hbar
          (mdl.elementObj eid) eid H sy mlocit
          (du_gather du (mdl.elementObj eid)) (mdl.elementObj eid).gauss.enum
          (List.replicate 8 0) (List.replicate 8 (List.replicate 8 0))
          (List.replicate 8 (List.replicate 8 0))
          { iv with sig_ele := upd1 iv.sig_ele eid (List.replicate 3 0) }
        rw [hg1, hg2] at hcomp
        obtain ⟨hfe, hivx⟩ := hcomp
        simp only at hfe hivx
        subst hfe
        subst hivx
        simp only [ls_elems, hH, hS, hg1, hg2]
        exact ih _ _ _ _

/-! ## Claim theorem (lagged tangent) -/

/-- C3: one-iteration-lagged tangent — in every assembly pass the tangent at
each Gauss point is built from the committed `dgamma_n[(eid, gp_id)]` of the
previous converged step, not from the `dgamma` just returned by the state
update: (a) replacing the state update by one that differs only in its
returned `dgamma` changes neither `f_int` nor `K_T`; (b) replacing the
committed `dgamma_n` map (keeping the committed strains) changes neither
`f_int` nor any transient dictionary, leaving `K_T` as the only consumer of
the lagged multiplier. -/
theorem tangent_uses_lagged_multiplier :
    ∀ (supd1 supd2 : SupdFun) (ctm : CtmFun) (mdl : Mdl) (ndof : Nat)
      (du : Nat → ℚ) (comm comm2 : Committed) (mlocit : Nat),
      (∀ E nu H sy eet ebt ml,
        (supd1 E nu H sy eet ebt ml).sig = (supd2 E nu H sy eet ebt ml).sig ∧
        (supd1 E nu H sy eet ebt ml).eps_e = (supd2 E nu H sy eet ebt ml).eps_e ∧
        (supd1 E nu H sy eet ebt ml).eps_bar_p = (supd2 E nu H sy eet ebt ml).eps_bar_p ∧
        (supd1 E nu H sy eet ebt ml).ep_flag = (supd2 E nu H sy eet ebt ml).ep_flag) →
      comm2.eps_e = comm.eps_e →
      comm2.eps_bar_p = comm.eps_bar_p →
      (∀ f1 K1 iv1 f2 K2 iv2,
        local_solver supd1 ctm mdl ndof du comm mlocit = .ok (f1, K1, iv1) →
        local_solver supd2 ctm mdl ndof du comm mlocit = .ok (f2, K2, iv2) →
        f1 = f2 ∧ K1 = K2) ∧
      (∀ f1 K1 iv1 f3 K3 iv3,
        local_solver supd1 ctm mdl ndof du comm mlocit = .ok (f1, K1, iv1) →
        local_solver supd1 ctm mdl ndof du comm2 mlocit = .ok (f3, K3, iv3) →
        f1 = f3 ∧ iv1 = iv3) := by
  intro supd1 supd2 ctm mdl ndof du comm comm2 mlocit hsupd heps hbar
  constructor
  · intro f1 K1 iv1 f2 K2 iv2 h1 h2
    have hrel := @ls_elems_supd_agree supd1 supd2 ctm mdl du comm mlocit hsupd
      mdl.elements (fun _ => 0) (fun _ => 0) iv0 iv0 ⟨rfl, rfl, rfl⟩
    unfold local_solver at h1 h2
    rw [h1, h2] at hrel
    exact ⟨hrel.1, hrel.2.1⟩
  · intro f1 K1 iv1 f3 K3 iv3 h1 h3
    have hrel := @ls_elems_comm_dgamma_indep supd1 ctm mdl du comm comm2 mlocit
      heps hbar mdl.elements (fun _ => 0) (fun _ => 0) (fun _ => 0) iv0
    unfold local_solver at h1 h3
    rw [h1, h3] at hrel
    exact hrel

/-- Transient-state component of a `local_solver` run (fresh dictionaries
when the run raises). -/
def ls_ivar (supd : SupdFun) (ctm : CtmFun) (mdl : Mdl) (num_dof : Nat)
    (du : Nat → ℚ) (comm : Committed) (max_num_local_iter : Nat) : IntVar :=
  match local_solver supd ctm mdl num_dof du comm max_num_local_iter with
  | .ok (_, _, iv) => iv
  | .error _ => iv0

/-- Second concrete element sharing dof 2 with `elemW`. -/
def elemW2 : Element := { elemW with dof := [2, 3] }

/-- Two-element concrete model in which elements 1 and 2 share the global
dof index 1 (0-based). -/
def mdl2E : Mdl :=
  { mdlW with
    num_dof := 3
    elements := [1, 2]
    elementObj := fun eid => if eid = 1 then elemW else elemW2
    imposed_displ := none }

lemma mdl2E_props : ∀ eid ∈ mdl2E.elements, has_props mdl2E eid := by
  intro eid h
  simp only [mdl2E, mdlW, List.mem_cons, List.mem_singleton] at h
  rcases h with rfl | h
  · exact ⟨by simp [H_of, mdl2E, mdlW, matW, elemW, alookup],
           by simp [sig_y0_of, mdl2E, mdlW, matW, elemW, alookup]⟩
  · rcases h with rfl | h
    · exact ⟨by simp [H_of, mdl2E, mdlW, matW, elemW, elemW2, alookup],
             by simp [sig_y0_of, mdl2E, mdlW, matW, elemW, elemW2, alookup]⟩
    · simp at h

/-- C6 witness: the two-element model with a shared dof satisfies the
property and nodup hypotheses, and the theorem yields the sum formula for
the shared entry 1 and the diagonal entry (1, 1). -/
theorem scatter_by_summation_witness :
    (∀ eid ∈ mdl2E.elements, has_props mdl2E eid) ∧
    (∀ eid ∈ mdl2E.elements, (elem_id_v (mdl2E.elementObj eid)).Nodup) ∧
    ls_fint supdW ctmW mdl2E 3 (fun _ => 0) (init_comm mdl2E) 100 1 =
      (mdl2E.elements.map (fun eid =>
        scatterContrib (elem_id_v (mdl2E.elementObj eid))
          (elem_contrib supdW ctmW mdl2E (fun _ => 0) (init_comm mdl2E) 100 eid).1 1)).sum ∧
    ls_ktan supdW ctmW mdl2E 3 (fun _ => 0) (init_comm mdl2E) 100 (1, 1) =
      (mdl2E.elements.map (fun eid =>
        scatterContrib (elem_id_m (mdl2E.elementObj eid))
          (elem_contrib supdW ctmW mdl2E (fun _ => 0) (init_comm mdl2E) 100 eid).2.flatten (1, 1))).sum := by
  have hprops : ∀ eid ∈ mdl2E.elements, has_props mdl2E eid := mdl2E_props
  have hnd : ∀ eid ∈ mdl2E.elements, (elem_id_v (mdl2E.elementObj eid)).Nodup := by
    intro eid h
    simp only [mdl2E, mdlW, List.mem_cons, List.mem_singleton] at h
    rcases h with rfl | h
    · simp [elem_id_v, mdl2E, mdlW, elemW]
    · rcases h with rfl | h
      · simp [elem_id_v, mdl2E, mdlW, elemW, elemW2]
      · simp at h
  have h := scatter_by_summation supdW ctmW mdl2E 3 (fun _ => 0)
    (init_comm mdl2E) 100 hprops hnd
  exact ⟨hprops, hnd, h.1 1, h.2 (1, 1)⟩

/-- Variant of `supdW` differing only in the returned `dgamma`. -/
def supdW2 : SupdFun := fun _ _ _ _ _ _ _ => ⟨[0, 0, 0], [0, 0, 0], 0, 99, false⟩

/-- Committed state agreeing with `init_comm mdl2E` except for the
plastic-multiplier map. -/
def commDg : Committed := ⟨fun _ => List.replicate 3 0, fun _ => 0, fun _ => 42⟩

lemma local_solver_mdl2E_ok (supd : SupdFun) (ctm : CtmFun) (comm : Committed) :
    local_solver supd ctm mdl2E 3 (fun _ => 0) comm 100 =
      .ok (ls_fint supd ctm mdl2E 3 (fun _ => 0) comm 100,
           ls_ktan supd ctm mdl2E 3 (fun _ => 0) comm 100,
           ls_ivar supd ctm mdl2E 3 (fun _ => 0) comm 100) := by
  obtain ⟨⟨f, K, iv⟩, hok⟩ := @ls_elems_ok supd ctm mdl2E (fun _ => 0) comm 100
    mdl2E.elements mdl2E_props (fun _ => 0, fun _ => 0, iv0)
  unfold ls_fint ls_ktan ls_ivar local_solver
  rw [hok]

/-- C3 witness: with the concrete two-element model, a state update whose
`dgamma` output is perturbed leaves `f_int` and `K_T` unchanged, while
perturbing the committed `dgamma_n` map leaves `f_int` and the transient
state unchanged. -/
theorem tangent_uses_lagged_multiplier_witness :
    commDg.eps_e = (init_comm mdl2E).eps_e ∧
    commDg.eps_bar_p = (init_comm mdl2E).eps_bar_p ∧
    ls_fint supdW ctmW mdl2E 3 (fun _ => 0) (init_comm mdl2E) 100 =
      ls_fint supdW2 ctmW mdl2E 3 (fun _ => 0) (init_comm mdl2E) 100 ∧
    ls_ktan supdW ctmW mdl2E 3 (fun _ => 0) (init_comm mdl2E) 100 =
      ls_ktan supdW2 ctmW mdl2E 3 (fun _ => 0) (init_comm mdl2E) 100 ∧
    ls_fint supdW ctmW mdl2E 3 (fun _ => 0) (init_comm mdl2E) 100 =
      ls_fint supdW ctmW mdl2E 3 (fun _ => 0) commDg 100 ∧
    ls_ivar supdW ctmW mdl2E 3 (fun _ => 0) (init_comm mdl2E) 100 =
      ls_ivar supdW ctmW mdl2E 3 (fun _ => 0) commDg 100 := by
  have h := tangent_uses_lagged_multiplier supdW supdW2 ctmW mdl2E 3
    (fun _ => 0) (init_comm mdl2E) commDg 100
    (fun E nu H sy eet ebt ml => ⟨rfl, rfl, rfl, rfl⟩) rfl rfl
  obtain ⟨ha, hb⟩ := h
  obtain ⟨hf12, hK12⟩ := ha _ _ _ _ _ _
    (local_solver_mdl2E_ok supdW ctmW (init_comm mdl2E))
    (local_solver_mdl2E_ok supdW2 ctmW (init_comm mdl2E))
  obtain ⟨hf13, hiv13⟩ := hb _ _ _ _ _ _
    (local_solver_mdl2E_ok supdW ctmW (init_comm mdl2E))
    (local_solver_mdl2E_ok supdW ctmW commDg)
  exact ⟨rfl, rfl, hf12, hK12, hf13, hiv13⟩

/-! ## Newton-loop commit lemmas -/

lemma newton_loop_converged_src {supd : SupdFun} {ctm : CtmFun}
    {linsolve : LinSolve} {f_ext : Nat → ℚ} {lmbda tol : ℚ} {mlocit : Nat}
    {comm : Committed} :
    ∀ (fuel k : Nat) (u du : Nat → ℚ) (mdl : Mdl) (iters : Nat)
      (u2 du2 : Nat → ℚ) (iv : IntVar) (errSq : ℚ) (mdl2 : Mdl),
      newton_loop supd ctm linsolve f_ext lmbda tol mlocit fuel k u du comm mdl =
        .converged iters u2 du2 iv errSq mdl2 →
      ∃ u0 du0 mdl0,
        newton_pass supd ctm linsolve f_ext lmbda mlocit comm u0 du0 mdl0 =
          .ok ⟨u2, du2, mdl2, iv, errSq⟩ ∧
        conv_check errSq tol = true := by
  intro fuel
  induction fuel with
  | zero =>
    intro k u du mdl iters u2 du2 iv errSq mdl2 h
    simp [newton_loop] at h
  | succ f ih =>
    intro k u du mdl iters u2 du2 iv errSq mdl2 h
    rw [newton_loop] at h
    split at h
    · simp at h
    · rename_i p hp
      split at h
      · rename_i hcv
        injection h with h1 h2 h3 h4 h5 h6
        refine ⟨u, du, mdl, ?_, ?_⟩
        · rw [hp]
          obtain ⟨pu, pdu, pm, piv, pe⟩ := p
          simp_all
        · rw [← h5]
          exact hcv
      · rename_i hcv
        cases f with
        | zero => simp at h
        | succ f2 => exact ih (k + 1) p.u2 p.du2 p.mdl2 iters u2 du2 iv errSq mdl2 h

lemma newton_loop_diverged_kRep {supd : SupdFun} {ctm : CtmFun}
    {linsolve : LinSolve} {f_ext : Nat → ℚ} {lmbda tol : ℚ} {mlocit : Nat}
    {comm : Committed} :
    ∀ (fuel k : Nat) (u du : Nat → ℚ) (mdl : Mdl) (kRep : Nat) (errSq : ℚ)
      (u2 : Nat → ℚ) (mdl2 : Mdl),
      newton_loop supd ctm linsolve f_ext lmbda tol mlocit fuel k u du comm mdl =
        .diverged kRep errSq u2 mdl2 →
      kRep = k + fuel - 1 := by
  intro fuel
  induction fuel with
  | zero =>
    intro k u du mdl kRep errSq u2 mdl2 h
    simp [newton_loop] at h
  | succ f ih =>
    intro k u du mdl kRep errSq u2 mdl2 h
    rw [newton_loop] at h
    split at h
    · simp at h
    · rename_i p hp
      split at h
      · simp at h
      · cases f with
        | zero =>
          injection h with h1
          omega
        | succ f2 =>
          have := ih (k + 1) p.u2 p.du2 p.mdl2 kRep errSq u2 mdl2 h
          omega

lemma newton_loop_diverged_src {supd : SupdFun} {ctm : CtmFun}
    {linsolve : LinSolve} {f_ext : Nat → ℚ} {lmbda tol : ℚ} {mlocit : Nat}
    {comm : Committed} :
    ∀ (fuel k : Nat) (u du : Nat → ℚ) (mdl : Mdl) (kRep : Nat) (errSq : ℚ)
      (u2 : Nat → ℚ) (mdl2 : Mdl),
      newton_loop supd ctm linsolve f_ext lmbda tol mlocit fuel k u du comm mdl =
        .diverged kRep errSq u2 mdl2 →
      ∃ u0 du0 mdl0 p,
        newton_pass supd ctm linsolve f_ext lmbda mlocit comm u0 du0 mdl0 = .ok p ∧
        p.errSq = errSq ∧ p.u2 = u2 ∧ p.mdl2 = mdl2 ∧
        conv_check p.errSq tol = false := by
  intro fuel
  induction fuel with
  | zero =>
    intro k u du mdl kRep errSq u2 mdl2 h
    simp [newton_loop] at h
  | succ f ih =>
    intro k u du mdl kRep errSq u2 mdl2 h
    rw [newton_loop] at h
    split at h
    · simp at h
    · rename_i p hp
      split at h
      · simp at h
      · rename_i hcv
        rw [Bool.not_eq_true] at hcv
        cases f with
        | zero =>
          injection h with h1 h2 h3 h4
          exact ⟨u, du, mdl, p, hp, h2, h3, h4, hcv⟩
        | succ f2 => exact ih (k + 1) p.u2 p.du2 p.mdl2 kRep errSq u2 mdl2 h

/-! ## Claim theorems (commit discipline and fatal divergence) -/

/-- C1: commit on convergence only — (a) a Newton iteration whose residual
fails the tolerance check hands the *unchanged* committed Gauss-point maps
to the next iteration, discarding the candidate `int_var` it computed;
(b) when the loop converges, the exposed candidate state is the `int_var`
of a single `local_solver` pass executed against the original committed
maps (which were never replaced mid-loop), with its residual passing the
tolerance check. -/
theorem committed_state_only_on_convergence :
    ∀ (supd : SupdFun) (ctm : CtmFun) (linsolve : LinSolve) (f_ext : Nat → ℚ)
      (lmbda tol : ℚ) (mlocit fuel k : Nat) (u du : Nat → ℚ)
      (comm : Committed) (mdl : Mdl),
      (∀ p, newton_pass supd ctm linsolve f_ext lmbda mlocit comm u du mdl = .ok p →
        conv_check p.errSq tol = false →
        newton_loop supd ctm linsolve f_ext lmbda tol mlocit (fuel + 2) k u du comm mdl =
          newton_loop supd ctm linsolve f_ext lmbda tol mlocit (fuel + 1) (k + 1)
            p.u2 p.du2 comm p.mdl2) ∧
      (∀ iters u2 du2 iv errSq mdl2,
        newton_loop supd ctm linsolve f_ext lmbda tol mlocit fuel k u du comm mdl =
          .converged iters u2 du2 iv errSq mdl2 →
        ∃ u0 du0 mdl0,
          newton_pass supd ctm linsolve f_ext lmbda mlocit comm u0 du0 mdl0 =
            .ok ⟨u2, du2, mdl2, iv, errSq⟩ ∧
          conv_check errSq tol = true) := by
  intro supd ctm linsolve f_ext lmbda tol mlocit fuel k u du comm mdl
  constructor
  · intro p hp hcv
    rw [newton_loop, hp]
    simp [hcv]
  · intro iters u2 du2 iv errSq mdl2 h
    exact newton_loop_converged_src fuel k u du mdl iters u2 du2 iv errSq mdl2 h

/-- C2: global non-convergence is fatal and uncommitted — if the Newton
loop of a load increment exhausts its iterations, the solver raises the
exception carrying the 1-based increment index, the final loop variable
`k = max_num_iter − 1`, and the last residual norm (an actual non-converged
pass residual computed against the still-uncommitted maps); the committed
maps held at raise time are those from before the increment, and the
remaining load increments (universally quantified here) are never
processed. -/
theorem global_nonconvergence_fatal :
    ∀ (supd : SupdFun) (ctm : CtmFun) (linsolve : LinSolve) (maxit : Nat)
      (tol : ℚ) (mlocit : Nat) (f_ext_bar : Nat → ℚ) (incr_id : Nat)
      (lmbda : ℚ) (rest : List ℚ) (st : RunState) (kRep : Nat) (errSq : ℚ)
      (u2 : Nat → ℚ) (mdl2 : Mdl),
      1 ≤ maxit →
      newton_loop supd ctm linsolve (scaled_f_ext lmbda f_ext_bar) lmbda tol
          mlocit maxit 0 st.u (fun _ => 0) st.comm st.mdl =
        .diverged kRep errSq u2 mdl2 →
      solver_loop supd ctm linsolve maxit tol mlocit f_ext_bar
          (lmbda :: rest) incr_id st =
        .error (.nonconv (incr_id + 1) kRep errSq st.comm) ∧
      kRep = maxit - 1 ∧
      (∃ u0 du0 mdl0 p,
        newton_pass supd ctm linsolve (scaled_f_ext lmbda f_ext_bar) lmbda
            mlocit st.comm u0 du0 mdl0 = .ok p ∧
        p.errSq = errSq ∧ conv_check p.errSq tol = false) := by
  intro supd ctm linsolve maxit tol mlocit f_ext_bar incr_id lmbda rest st
    kRep errSq u2 mdl2 hmax hdiv
  refine ⟨?_, ?_, ?_⟩
  · rw [solver_loop]
    unfold increment_step
    rw [hdiv]
  · have := newton_loop_diverged_kRep maxit 0 st.u (fun _ => 0) st.mdl kRep
      errSq u2 mdl2 hdiv
    omega
  · obtain ⟨u0, du0, mdl0, p, hp, he, _, _, hcv⟩ :=
      newton_loop_diverged_src maxit 0 st.u (fun _ => 0) st.mdl kRep errSq u2
        mdl2 hdiv
    exact ⟨u0, du0, mdl0, p, hp, he, hcv⟩

/-! ## Zero-propagation lemmas for the zero-load scenario -/

/-- Every entry of the list is zero. -/
def allZ (l : List ℚ) : Prop := ∀ x ∈ l, x = 0

lemma allZ_replicate (n : Nat) : allZ (List.replicate n 0) := by
  intro x hx
  exact (List.eq_of_mem_replicate hx)

lemma dotV_allZ_right : ∀ (a b : List ℚ), allZ b → dotV a b = 0 := by
  intro a
  induction a with
  | nil => intro b _; simp [dotV]
  | cons x xs ih =>
    intro b hb
    cases b with
    | nil => simp [dotV]
    | cons y ys =>
      have hy : y = 0 := hb y (by simp)
      have hys : allZ ys := fun z hz => hb z (by simp [hz])
      unfold dotV
      rw [List.zipWith_cons_cons, List.sum_cons, hy, mul_zero, zero_add]
      exact ih ys hys

lemma addV_allZ : ∀ (a b : List ℚ), allZ a → allZ b → allZ (addV a b) := by
  intro a
  induction a with
  | nil => intro b _ _; intro x hx; simp [addV] at hx
  | cons x xs ih =>
    intro b ha hb
    cases b with
    | nil => intro z hz; simp [addV] at hz
    | cons y ys =>
      intro z hz
      unfold addV at hz
      rw [List.zipWith_cons_cons] at hz
      rcases List.mem_cons.mp hz with h | h
      · rw [h, ha x (by simp), hb y (by simp), add_zero]
      · exact ih ys (fun w hw => ha w (by simp [hw]))
          (fun w hw => hb w (by simp [hw])) z h

lemma smulV_allZ_right {v : List ℚ} (h : allZ v) (c : ℚ) : allZ (smulV c v) := by
  intro x hx
  obtain ⟨y, hy, rfl⟩ := List.mem_map.mp hx
  rw [h y hy, mul_zero]

lemma smulV_allZ_left (v : List ℚ) : allZ (smulV 0 v) := by
  intro x hx
  obtain ⟨y, hy, rfl⟩ := List.mem_map.mp hx
  rw [zero_mul]

lemma matVec_allZ {v : List ℚ} (h : allZ v) (M : List (List ℚ)) :
    allZ (matVec M v) := by
  intro x hx
  obtain ⟨row, hrow, rfl⟩ := List.mem_map.mp hx
  exact dotV_allZ_right row v h

lemma getD_allZ {l : List ℚ} (h : allZ l) (i : Nat) : l.getD i 0 = 0 := by
  cases hg : l.getD i 0 with
  | _ =>
    rcases Nat.lt_or_ge i l.length with hi | hi
    · rw [List.getD_eq_getElem l 0 hi] at hg
      rw [← hg]
      exact h _ (List.getElem_mem hi)
    · rw [List.getD_eq_default l 0 hi] at hg
      exact hg.symm

lemma matTvec8_allZ {v : List ℚ} (h : allZ v) (B : List (List ℚ)) :
    allZ (matTvec8 B v) := by
  unfold matTvec8
  have main : ∀ (pairs : List (List ℚ × ℚ)) (acc : List ℚ),
      (∀ p ∈ pairs, p.2 = 0) → allZ acc →
      allZ (pairs.foldl (fun acc p => addV acc (smulV p.2 p.1)) acc) := by
    intro pairs
    induction pairs with
    | nil => intro acc _ hacc; exact hacc
    | cons p ps ih =>
      intro acc hp hacc
      rw [List.foldl_cons]
      refine ih _ (fun q hq => hp q (by simp [hq])) ?_
      have hp0 : p.2 = 0 := hp p (by simp)
      rw [hp0]
      exact addV_allZ _ _ hacc (smulV_allZ_left p.1)
  refine main _ _ ?_ (allZ_replicate 8)
  intro p hp
  exact h p.2 (List.of_mem_zip hp).2

lemma getLast_mem_of_eq {α : Type} : ∀ {l : List α} {a : α},
    l.getLast? = some a → a ∈ l := by
  intro l
  induction l with
  | nil => intro a h; simp at h
  | cons x xs ih =>
    intro a h
    cases xs with
    | nil => simp at h; simp [h]
    | cons y ys =>
      rw [List.getLast?_cons_cons] at h
      exact List.mem_cons_of_mem _ (ih h)

lemma scatterAdd_allZ {vals : List ℚ} (h : allZ vals) {κ : Type}
    [DecidableEq κ] (f : κ → ℚ) (ids : List κ) (i : κ) :
    scatterAdd f ids vals i = f i := by
  unfold scatterAdd
  cases hl : ((ids.zip vals).filter (fun p => decide (p.1 = i))).getLast? with
  | none => rfl
  | some p =>
    have hmem : p ∈ (ids.zip vals).filter (fun p => decide (p.1 = i)) :=
      getLast_mem_of_eq hl
    have hmem2 : p ∈ ids.zip vals := List.mem_of_mem_filter hmem
    have hp0 : p.2 = 0 := h p.2 (List.of_mem_zip hmem2).2
    dsimp only
    rw [hp0, add_zero]

lemma normSq_zero {n : Nat} {r : Nat → ℚ} (h : ∀ i, r i = 0) :
    normSq n r = 0 := by
  unfold normSq
  apply List.sum_eq_zero
  intro x hx
  obtain ⟨i, _, rfl⟩ := List.mem_map.mp hx
  rw [h i]
  norm_num

lemma state_update_zero {rt : ℚ → ℚ} (hrt : rt 0 = 0) (E nu H sy : ℚ)
    (hsy : 0 ≤ sy) {eet : List ℚ} (heet : allZ eet) (ml : Nat) :
    state_update_mises rt E nu H sy eet 0 ml =
      ⟨matVec (de_matrix E nu) eet, eet, 0, 0, false⟩ := by
  have hsig : allZ (matVec (de_matrix E nu) eet) := matVec_allZ heet _
  have hq : q_sq (matVec (de_matrix E nu) eet) = 0 := by
    unfold q_sq
    rw [getD_allZ hsig 0, getD_allZ hsig 1, getD_allZ hsig 2]
    norm_num
  unfold state_update_mises
  dsimp only
  rw [hq, hrt, mul_zero, add_zero, if_pos (by linarith : (0 : ℚ) - sy ≤ 0)]

/-- All prescribed components of a displacement-constraint dictionary are
zero (or absent). -/
def bcZero (bc : List (Nat × (Option ℚ × Option ℚ))) : Prop :=
  ∀ p ∈ bc, (∀ v, p.2.1 = some v → v = 0) ∧ (∀ v, p.2.2 = some v → v = 0)

lemma alookup_some_mem {α : Type} {k : Nat} {v : α} :
    ∀ {l : List (Nat × α)}, alookup k l = some v → (k, v) ∈ l := by
  intro l
  induction l with
  | nil => intro h; simp [alookup] at h
  | cons p rest ih =>
    intro h
    unfold alookup at h
    by_cases hk : p.1 = k
    · rw [if_pos hk] at h
      injection h with h2
      exact List.mem_cons.mpr (Or.inl (by rw [← hk, ← h2]))
    · rw [if_neg hk] at h
      exact List.mem_cons_of_mem _ (ih h)

lemma scale_imposed_bcZero (il : List (Nat × (Option ℚ × Option ℚ))) :
    bcZero (scale_imposed 0 il) := by
  intro p hp
  obtain ⟨q, _, rfl⟩ := List.mem_map.mp hp
  constructor
  · intro v hv
    obtain ⟨d, _, rfl⟩ := Option.map_eq_some'.mp hv
    exact mul_zero d
  · intro v hv
    obtain ⟨d, _, rfl⟩ := Option.map_eq_some'.mp hv
    exact mul_zero d

lemma dictUpdate_bcZero {base upd : List (Nat × (Option ℚ × Option ℚ))}
    (hb : bcZero base) (hu : bcZero upd) : bcZero (dictUpdate base upd) := by
  intro p hp
  unfold dictUpdate at hp
  rcases List.mem_append.mp hp with hm | hm
  · obtain ⟨q, hq, rfl⟩ := List.mem_map.mp hm
    cases ha : alookup q.1 upd with
    | some w =>
      have := hu (q.1, w) (alookup_some_mem ha)
      simpa [ha] using this
    | none =>
      have := hb q hq
      simpa [ha] using this
  · exact hu p (List.mem_of_mem_filter hm)

lemma apply_bc_zero {mdl : Mdl} (hb : bcZero mdl.displacement_bc) :
    bcZero (apply_displacement_bc 0 mdl).displacement_bc := by
  unfold apply_displacement_bc
  cases him : mdl.imposed_displ with
  | none => exact hb
  | some il => exact dictUpdate_bcZero hb (scale_imposed_bcZero il)

lemma bc_expand_zero {mdl : Mdl} :
    ∀ {bc : List (Nat × (Option ℚ × Option ℚ))}, bcZero bc →
      ∀ q ∈ bc_expand mdl bc, q.2 = 0 := by
  intro bc
  induction bc with
  | nil => intro _ q hq; simp [bc_expand] at hq
  | cons loc rest ih =>
    intro hb q hq
    unfold bc_expand at hq
    rw [List.foldr_cons] at hq
    rcases List.mem_append.mp hq with hm | hm
    · obtain ⟨h1, h2⟩ := hb loc (by simp)
      have inner : ∀ (ns : List Nat) (acc : List (Nat × ℚ)),
          (∀ q2 ∈ acc, q2.2 = 0) →
          ∀ q2 ∈ ns.foldr (fun n acc2 =>
            (match loc.2.1 with
             | some v => [((mdl.node_dof n).1, v)]
             | none => []) ++
            (match loc.2.2 with
             | some v => [((mdl.node_dof n).2, v)]
             | none => []) ++ acc2) acc, q2.2 = 0 := by
        intro ns
        induction ns with
        | nil => intro acc hacc q2 hq2; exact hacc q2 hq2
        | cons n ns2 ih2 =>
          intro acc hacc q2 hq2
          rw [List.foldr_cons] at hq2
          rcases List.mem_append.mp hq2 with hk | hk
          · rcases List.mem_append.mp hk with hk2 | hk2
            · cases hv1 : loc.2.1 with
              | none => rw [hv1] at hk2; simp at hk2
              | some v =>
                rw [hv1] at hk2
                simp only [List.mem_singleton] at hk2
                rw [hk2]
                exact h1 v hv1
            · cases hv2 : loc.2.2 with
              | none => rw [hv2] at hk2; simp at hk2
              | some v =>
                rw [hv2] at hk2
                simp only [List.mem_singleton] at hk2
                rw [hk2]
                exact h2 v hv2
          · exact ih2 acc hacc q2 hk
      exact inner (mdl.phys_nodes loc.1) [] (by simp) q hm
    · exact ih (fun p hp => hb p (by simp [hp])) q hm

lemma dirichlet_rm_zero {K : Nat × Nat → ℚ} {r : Nat → ℚ} {mdl : Mdl}
    (hb : bcZero mdl.displacement_bc) (hr : ∀ i, r i = 0) :
    ∀ i, (dirichlet K r mdl).2 i = 0 := by
  intro i
  unfold dirichlet
  simp only
  cases ha : alookup i (bc_expand mdl mdl.displacement_bc) with
  | some v =>
    have hv := bc_expand_zero hb (i, v) (alookup_some_mem ha)
    simp only at hv
    rw [hv]
    dsimp only
    exact neg_zero
  | none => exact hr i

lemma du_gather_zero (e : Element) : allZ (du_gather (fun _ => 0) e) := by
  intro x hx
  obtain ⟨d, _, rfl⟩ := List.mem_map.mp hx
  rfl

lemma gp_loop_zero {rt : ℚ → ℚ} {ctm : CtmFun} (hrt : rt 0 = 0) (e : Element)
    (eid : Nat) (H sy : ℚ) (hsy : 0 ≤ sy) (ml : Nat) (comm : Committed)
    (hce : ∀ key, allZ (comm.eps_e key)) (hcb : ∀ key, comm.eps_bar_p key = 0)
    {du_ele : List ℚ} (hdu : allZ du_ele) :
    ∀ (gs : List (Nat × (ℚ × (ℚ × ℚ)))) (fe : List ℚ) (ke : List (List ℚ))
      (iv : IntVar), allZ fe → (∀ key, iv.eps_bar_p key = 0) →
      allZ (gp_loop (state_update_mises rt) ctm e eid H sy ml comm du_ele gs
        (fe, ke, iv)).1 ∧
      (∀ key, ((gp_loop (state_update_mises rt) ctm e eid H sy ml comm du_ele gs
        (fe, ke, iv)).2.2).eps_bar_p key = 0) := by
  intro gs
  induction gs with
  | nil => intro fe ke iv hfe hiv; exact ⟨hfe, hiv⟩
  | cons g rest ih =>
    intro fe ke iv hfe hiv
    obtain ⟨gp_id, w, gp⟩ := g
    have heet : allZ (addV (comm.eps_e (eid, gp_id)) (matVec (e.B gp) du_ele)) :=
      addV_allZ _ _ (hce (eid, gp_id)) (matVec_allZ hdu _)
    have hsu := state_update_zero hrt e.E e.nu H sy hsy heet ml
    simp only [gp_loop, hcb (eid, gp_id), hsu]
    refine ih _ _ _ ?_ ?_
    · exact addV_allZ _ _ hfe
        (smulV_allZ_right (matTvec8_allZ (matVec_allZ heet _) _) _)
    · intro key
      simp only [upd2]
      by_cases hk : key = (eid, gp_id)
      · rw [if_pos hk]
      · rw [if_neg hk]
        exact hiv key

lemma ls_elems_zero {rt : ℚ → ℚ} {ctm : CtmFun} {mdl : Mdl} {comm : Committed}
    {ml : Nat} (hrt : rt 0 = 0)
    (hce : ∀ key, allZ (comm.eps_e key)) (hcb : ∀ key, comm.eps_bar_p key = 0) :
    ∀ (l : List Nat),
      (∀ eid ∈ l, ∃ H0 s0, H_of mdl eid = some H0 ∧
        sig_y0_of mdl eid = some s0 ∧ 0 ≤ s0) →
      ∀ (f : Nat → ℚ) (K : Nat × Nat → ℚ) (iv : IntVar),
        (∀ i, f i = 0) → (∀ key, iv.eps_bar_p key = 0) →
        ∃ f2 K2 iv2,
          ls_elems (state_update_mises rt) ctm mdl (fun _ => 0) comm ml l
            (f, K, iv) = .ok (f2, K2, iv2) ∧
          (∀ i, f2 i = 0) ∧ (∀ key, iv2.eps_bar_p key = 0) := by
  intro l
  induction l with
  | nil =>
    intro _ f K iv hf hiv
    exact ⟨f, K, iv, rfl, hf, hiv⟩
  | cons eid rest ih =>
    intro hprops f K iv hf hiv
    obtain ⟨H, sy, hH, hS, hsy⟩ := hprops eid (by simp)
    rcases hg : gp_loop (state_update_mises rt) ctm (mdl.elementObj eid) eid H
        sy ml comm (du_gather (fun _ => 0) (mdl.elementObj eid))
        (mdl.elementObj eid).gauss.enum
        (List.replicate 8 0, List.replicate 8 (List.replicate 8 0),
         { iv with sig_ele := upd1 iv.sig_ele eid (List.replicate 3 0) })
      with ⟨fe, ke, ivx⟩
    have hz := @gp_loop_zero rt ctm hrt (mdl.elementObj eid) eid H sy hsy ml
      comm hce hcb (du_gather (fun _ => 0) (mdl.elementObj eid))
      (du_gather_zero (mdl.elementObj eid))
      (mdl.elementObj eid).gauss.enum
      (List.replicate 8 0) (List.replicate 8 (List.replicate 8 0))
      { iv with sig_ele := upd1 iv.sig_ele eid (List.replicate 3 0) }
      (allZ_replicate 8) hiv
    rw [hg] at hz
    obtain ⟨hfe, hivx⟩ := hz
    simp only at hfe hivx
    obtain ⟨f2, K2, iv2, hok, hf2, hiv2⟩ := ih
      (fun e he => hprops e (by simp [he]))
      (scatterAdd f (elem_id_v (mdl.elementObj eid)) fe)
      (scatterAdd K (elem_id_m (mdl.elementObj eid)) ke.flatten) ivx
      (fun i => by rw [scatterAdd_allZ hfe]; exact hf i) hivx
    refine ⟨f2, K2, iv2, ?_, hf2, hiv2⟩
    simp only [ls_elems, hH, hS, hg]
    exact hok

lemma newton_pass_zero {rt : ℚ → ℚ} {ctm : CtmFun} {linsolve : LinSolve}
    {mdl : Mdl} {mlocit : Nat} {f_ext : Nat → ℚ} {comm : Committed}
    (hrt : rt 0 = 0)
    (hls : ∀ K r, (∀ i, r i = 0) → ∀ i, linsolve K r i = 0)
    (hprops : ∀ eid ∈ mdl.elements, ∃ H0 s0, H_of mdl eid = some H0 ∧
      sig_y0_of mdl eid = some s0 ∧ 0 ≤ s0)
    (hbc : bcZero mdl.displacement_bc)
    (hfe : ∀ i, f_ext i = 0)
    (hce : ∀ key, allZ (comm.eps_e key)) (hcb : ∀ key, comm.eps_bar_p key = 0)
    (u : Nat → ℚ) :
    ∃ p, newton_pass (state_update_mises rt) ctm linsolve f_ext 0 mlocit comm
        u (fun _ => 0) mdl = .ok p ∧
      (∀ i, p.u2 i = u i) ∧ (∀ i, p.du2 i = 0) ∧ p.errSq = 0 ∧
      (∀ key, p.intVar.eps_bar_p key = 0) ∧
      p.mdl2 = apply_displacement_bc 0 mdl := by
  obtain ⟨f2, K2, iv2, hok, hf2, hiv2⟩ := @ls_elems_zero rt ctm mdl comm mlocit
    hrt hce hcb mdl.elements hprops (fun _ => 0) (fun _ => 0) iv0
    (fun _ => rfl) (fun _ => rfl)
  have hloc : local_solver (state_update_mises rt) ctm mdl mdl.num_dof
      (fun _ => 0) comm mlocit = .ok (f2, K2, iv2) := hok
  have hr : ∀ i, f2 i - f_ext i = 0 := fun i => by
    rw [hf2 i, hfe i, sub_zero]
  have hrm := @dirichlet_rm_zero K2 (fun j => f2 j - f_ext j)
    (apply_displacement_bc 0 mdl) (apply_bc_zero hbc) hr
  have hnr : ∀ i,
      linsolve (dirichlet K2 (fun j => f2 j - f_ext j) (apply_displacement_bc 0 mdl)).1
        (dirichlet K2 (fun j => f2 j - f_ext j) (apply_displacement_bc 0 mdl)).2 i = 0 :=
    hls _ _ hrm
  have herr : normSq mdl.num_dof (fun j => f2 j - f_ext j) = 0 := normSq_zero hr
  refine ⟨⟨fun i => u i +
      -(linsolve (dirichlet K2 (fun j => f2 j - f_ext j) (apply_displacement_bc 0 mdl)).1
          (dirichlet K2 (fun j => f2 j - f_ext j) (apply_displacement_bc 0 mdl)).2 i),
    fun i => (fun _ => (0 : ℚ)) i +
      -(linsolve (dirichlet K2 (fun j => f2 j - f_ext j) (apply_displacement_bc 0 mdl)).1
          (dirichlet K2 (fun j => f2 j - f_ext j) (apply_displacement_bc 0 mdl)).2 i),
    apply_displacement_bc 0 mdl, iv2,
    normSq mdl.num_dof (fun j => f2 j - f_ext j)⟩, ?_, ?_, ?_, herr, hiv2, rfl⟩
  · unfold newton_pass
    rw [hloc]
  · intro i
    dsimp only
    rw [hnr i, neg_zero, add_zero]
  · intro i
    dsimp only
    rw [hnr i, neg_zero, add_zero]

lemma newton_loop_zero {rt : ℚ → ℚ} {ctm : CtmFun} {linsolve : LinSolve}
    {mdl : Mdl} {mlocit : Nat} {f_ext : Nat → ℚ} {comm : Committed} {tol : ℚ}
    (hrt : rt 0 = 0)
    (hls : ∀ K r, (∀ i, r i = 0) → ∀ i, linsolve K r i = 0)
    (hprops : ∀ eid ∈ mdl.elements, ∃ H0 s0, H_of mdl eid = some H0 ∧
      sig_y0_of mdl eid = some s0 ∧ 0 ≤ s0)
    (hbc : bcZero mdl.displacement_bc)
    (hfe : ∀ i, f_ext i = 0)
    (hce : ∀ key, allZ (comm.eps_e key)) (hcb : ∀ key, comm.eps_bar_p key = 0)
    (htol : 0 ≤ tol) (m : Nat) (u : Nat → ℚ) :
    ∃ u2 du2 iv mdl2,
      newton_loop (state_update_mises rt) ctm linsolve f_ext 0 tol mlocit
        (m + 1) 0 u (fun _ => 0) comm mdl = .converged 1 u2 du2 iv 0 mdl2 ∧
      (∀ i, u2 i = u i) ∧ (∀ key, iv.eps_bar_p key = 0) ∧
      mdl2 = apply_displacement_bc 0 mdl := by
  obtain ⟨p, hp, hu, hdu, herr, hiv, hmdl⟩ :=
    newton_pass_zero hrt hls hprops hbc hfe hce hcb u
  have hcv : conv_check p.errSq tol = true := by
    rw [herr]
    unfold conv_check
    rw [Bool.and_eq_true, decide_eq_true_eq, decide_eq_true_eq]
    exact ⟨htol, sq_nonneg tol⟩
  refine ⟨p.u2, p.du2, p.intVar, p.mdl2, ?_, hu, hiv, hmdl⟩
  rw [newton_loop, hp]
  dsimp only
  rw [hcv]
  rw [if_pos rfl, herr]

lemma solver_zero_run {rt : ℚ → ℚ} {ctm : CtmFun} {linsolve : LinSolve}
    {mdl : Mdl} {tol : ℚ} {mlocit : Nat}
    (hrt : rt 0 = 0)
    (hls : ∀ K r, (∀ i, r i = 0) → ∀ i, linsolve K r i = 0)
    (hprops : ∀ eid ∈ mdl.elements, ∃ H0 s0, H_of mdl eid = some H0 ∧
      sig_y0_of mdl eid = some s0 ∧ 0 ≤ s0)
    (hbc : bcZero mdl.displacement_bc)
    (htol : 0 ≤ tol) (n m : Nat) :
    ∃ d st,
      solver (state_update_mises rt) ctm linsolve mdl (some [0]) n (m + 1) tol
        mlocit = .ok (d, [0], st) ∧
      (∀ i, d.entry i 0 = 0) ∧ (∀ key, st.comm.eps_bar_p key = 0) ∧
      (∀ i, st.u i = 0) := by
  have hfe : ∀ i, scaled_f_ext 0 (external_load_vector mdl) i = 0 := fun i =>
    zero_mul _
  have hce : ∀ key, allZ ((init_comm mdl).eps_e key) := fun key =>
    allZ_replicate 3
  have hcb : ∀ key, (init_comm mdl).eps_bar_p key = 0 := fun key => rfl
  obtain ⟨u2, du2, iv, mdl2, hloop, hu2, hiv, hmdl2⟩ :=
    @newton_loop_zero rt ctm linsolve mdl mlocit
      (scaled_f_ext 0 (external_load_vector mdl)) (init_comm mdl) tol
      hrt hls hprops hbc hfe hce hcb htol m (fun _ => 0)
  have hu2z : ∀ i, u2 i = 0 := fun i => hu2 i
  have hstep : increment_step (state_update_mises rt) ctm linsolve (m + 1) tol
      mlocit (external_load_vector mdl) 0 0
      { u := fun _ => 0
        comm := init_comm mdl
        mdl := mdl
        displ := ⟨mdl.num_dof, 1, fun _ _ => 0⟩
        emitted := [] } =
      .ok { u := u2
            comm := ⟨iv.eps_e, iv.eps_bar_p, iv.dgamma⟩
            mdl := mdl2
            displ := setCol ⟨mdl.num_dof, 1, fun _ _ => 0⟩ 0 u2
            emitted := [(0, eps_bar_p_avg_field mdl2.elements iv.eps_bar_p)] } := by
    unfold increment_step
    rw [hloop]
    rfl
  refine ⟨setCol ⟨mdl.num_dof, 1, fun _ _ => 0⟩ 0 u2,
    { u := u2
      comm := ⟨iv.eps_e, iv.eps_bar_p, iv.dgamma⟩
      mdl := mdl2
      displ := setCol ⟨mdl.num_dof, 1, fun _ _ => 0⟩ 0 u2
      emitted := [(0, eps_bar_p_avg_field mdl2.elements iv.eps_bar_p)] },
    ?_, ?_, hiv, hu2z⟩
  · unfold solver
    dsimp only [resolve_load_increment, Option.getD, List.length_cons,
      List.length_nil]
    rw [solver_loop, hstep]
    rfl
  · intro i
    unfold setCol
    dsimp only
    rw [if_pos rfl]
    exact hu2z i

/-- C7: end-to-end zero-load scenario — for any model whose elements all
have material properties with nonnegative yield stress, homogeneous
(zero-valued) displacement constraints, a square root with `rt 0 = 0`, a
linear solver mapping a zero right-hand side to zero, `0 ≤ tol` and at
least one allowed iteration: the external force vector of the increment is
zero, the Newton loop of `load_increment = [0.0]` converges at iteration 1
with zero residual, and the solver returns a zero displacement column and
zero committed accumulated plastic strain at every Gauss point. -/
theorem zero_load_increment_trivial :
    ∀ (rt : ℚ → ℚ) (ctm : CtmFun) (linsolve : LinSolve) (mdl : Mdl)
      (n maxit : Nat) (tol : ℚ) (mlocit : Nat),
      rt 0 = 0 →
      (∀ K r, (∀ i, r i = 0) → ∀ i, linsolve K r i = 0) →
      (∀ eid ∈ mdl.elements, ∃ H0 s0, H_of mdl eid = some H0 ∧
        sig_y0_of mdl eid = some s0 ∧ 0 ≤ s0) →
      bcZero mdl.displacement_bc →
      0 ≤ tol →
      1 ≤ maxit →
      (∀ i, scaled_f_ext 0 (external_load_vector mdl) i = 0) ∧
      (∃ u2 du2 iv mdl2,
        newton_loop (state_update_mises rt) ctm linsolve
            (scaled_f_ext 0 (external_load_vector mdl)) 0 tol mlocit maxit 0
            (fun _ => 0) (fun _ => 0) (init_comm mdl) mdl =
          .converged 1 u2 du2 iv 0 mdl2 ∧
        (∀ i, u2 i = 0) ∧ (∀ key, iv.eps_bar_p key = 0)) ∧
      (∃ d st,
        solver (state_update_mises rt) ctm linsolve mdl (some [0]) n maxit tol
          mlocit = .ok (d, [0], st) ∧
        (∀ i, d.entry i 0 = 0) ∧ (∀ key, st.comm.eps_bar_p key = 0) ∧
        (∀ i, st.u i = 0)) := by
  intro rt ctm linsolve mdl n maxit tol mlocit hrt hls hprops hbc htol hmax
  obtain ⟨m, rfl⟩ : ∃ m, maxit = m + 1 := ⟨maxit - 1, by omega⟩
  have hfe : ∀ i, scaled_f_ext 0 (external_load_vector mdl) i = 0 := fun i =>
    zero_mul _
  have hce : ∀ key, allZ ((init_comm mdl).eps_e key) := fun key =>
    allZ_replicate 3
  have hcb : ∀ key, (init_comm mdl).eps_bar_p key = 0 := fun key => rfl
  obtain ⟨u2, du2, iv, mdl2, hloop, hu2, hiv, hmdl2⟩ :=
    @newton_loop_zero rt ctm linsolve mdl mlocit
      (scaled_f_ext 0 (external_load_vector mdl)) (init_comm mdl) tol
      hrt hls hprops hbc hfe hce hcb htol m (fun _ => 0)
  have hu2z : ∀ i, u2 i = 0 := fun i => hu2 i
  exact ⟨hfe, ⟨u2, du2, iv, mdl2, hloop, hu2z, hiv⟩,
    solver_zero_run hrt hls hprops hbc htol n m⟩

/-! ## Concrete fixtures for the loop witnesses -/

/-- Concrete square root for witnesses (only its value at 0 matters). -/
def rtW : ℚ → ℚ := fun _ => 0

/-- Concrete linear solver for witnesses; maps a zero right-hand side to
zero as `np.linalg.solve` does on a nonsingular system. -/
def linsolveW : LinSolve := fun _ r => r

lemma mdlW_props_zero : ∀ eid ∈ mdlW.elements,
    ∃ H0 s0, H_of mdlW eid = some H0 ∧ sig_y0_of mdlW eid = some s0 ∧ 0 ≤ s0 := by
  intro eid h
  simp only [mdlW, List.mem_singleton] at h
  subst h
  exact ⟨10, 5, by simp [H_of, mdlW, matW, elemW, alookup],
         by simp [sig_y0_of, mdlW, matW, elemW, alookup], by norm_num⟩

lemma mdlW_bcZero : bcZero mdlW.displacement_bc := by
  intro p hp
  simp only [mdlW, List.mem_singleton] at hp
  subst hp
  exact ⟨fun v hv => by simp at hv, fun v hv => by simp at hv⟩

/-- Concrete model on which the Newton loop can never converge: no
elements (so `f_int = 0`) but a unit reference traction. -/
def mdlDiv : Mdl :=
  { mdlW with
    num_dof := 1
    elements := []
    imposed_displ := none
    displacement_bc := []
    neumann_load := fun _ => 1 }

/-- Extracts the `PassOut` of a successful `newton_pass`. -/
def pass_of (r : Except String PassOut) : PassOut :=
  match r with
  | .ok p => p
  | .error _ => default

/-- The single Newton pass of `mdlDiv` at load factor 1. -/
def passDiv : PassOut :=
  pass_of (newton_pass (state_update_mises rtW) ctmW linsolveW
    (scaled_f_ext 1 (external_load_vector mdlDiv)) 1 100 (init_comm mdlDiv)
    (fun _ => 0) (fun _ => 0) mdlDiv)

lemma passDiv_eq : newton_pass (state_update_mises rtW) ctmW linsolveW
    (scaled_f_ext 1 (external_load_vector mdlDiv)) 1 100 (init_comm mdlDiv)
    (fun _ => 0) (fun _ => 0) mdlDiv = .ok passDiv := rfl

lemma passDiv_errSq : passDiv.errSq = 1 := by
  norm_num [passDiv, pass_of, newton_pass, local_solver, ls_elems, normSq,
    List.range_succ, scaled_f_ext, external_load_vector, mdlDiv, mdlW]

lemma passDiv_not_conv : conv_check passDiv.errSq (1 / 2) = false := by
  rw [passDiv_errSq]
  simp only [conv_check, Bool.and_eq_false_iff, decide_eq_false_iff_not]
  right
  norm_num

/-- Running state at the head of the diverging increment. -/
def stDiv : RunState :=
  { u := fun _ => 0, comm := init_comm mdlDiv, mdl := mdlDiv,
    displ := ⟨1, 1, fun _ _ => 0⟩, emitted := [] }

lemma WD_eq : newton_loop (state_update_mises rtW) ctmW linsolveW
    (scaled_f_ext 1 (external_load_vector mdlDiv)) 1 (1 / 2) 100 1 0 stDiv.u
    (fun _ => 0) stDiv.comm stDiv.mdl =
    .diverged 0 passDiv.errSq passDiv.u2 passDiv.mdl2 := by
  show newton_loop (state_update_mises rtW) ctmW linsolveW
    (scaled_f_ext 1 (external_load_vector mdlDiv)) 1 (1 / 2) 100 1 0
    (fun _ => 0) (fun _ => 0) (init_comm mdlDiv) mdlDiv = _
  rw [newton_loop, passDiv_eq]
  dsimp only
  rw [passDiv_not_conv]
  rfl

/-- The Newton loop of `mdlW` at zero load with the default tolerance. -/
def loopZ : NOut :=
  newton_loop (state_update_mises rtW) ctmW linsolveW
    (scaled_f_ext 0 (external_load_vector mdlW)) 0 (1 / 1000000) 100 5 0
    (fun _ => 0) (fun _ => 0) (init_comm mdlW) mdlW

lemma loopZ_conv : ∃ u2 du2 iv mdl2, loopZ = .converged 1 u2 du2 iv 0 mdl2 := by
  obtain ⟨u2, du2, iv, mdl2, h, -, -, -⟩ :=
    @newton_loop_zero rtW ctmW linsolveW mdlW 100
      (scaled_f_ext 0 (external_load_vector mdlW)) (init_comm mdlW)
      (1 / 1000000) rfl (fun K r hz i => hz i) mdlW_props_zero mdlW_bcZero
      (fun i => zero_mul _) (fun key => allZ_replicate 3) (fun key => rfl)
      (by norm_num) 4 (fun _ => 0)
  exact ⟨u2, du2, iv, mdl2, h⟩

/-- C1 witness: on the diverging model the non-converged first pass hands
the unchanged committed maps to the next iteration, and on the zero-load
model the converged loop exposes a candidate produced by a single pass
against the original committed maps. -/
theorem committed_state_only_on_convergence_witness :
    newton_pass (state_update_mises rtW) ctmW linsolveW
      (scaled_f_ext 1 (external_load_vector mdlDiv)) 1 100 (init_comm mdlDiv)
      (fun _ => 0) (fun _ => 0) mdlDiv = .ok passDiv ∧
    conv_check passDiv.errSq (1 / 2) = false ∧
    newton_loop (state_update_mises rtW) ctmW linsolveW
      (scaled_f_ext 1 (external_load_vector mdlDiv)) 1 (1 / 2) 100 2 0
      (fun _ => 0) (fun _ => 0) (init_comm mdlDiv) mdlDiv =
    newton_loop (state_update_mises rtW) ctmW linsolveW
      (scaled_f_ext 1 (external_load_vector mdlDiv)) 1 (1 / 2) 100 1 1
      passDiv.u2 passDiv.du2 (init_comm mdlDiv) passDiv.mdl2 ∧
    (∃ u2 du2 iv mdl2, loopZ = .converged 1 u2 du2 iv 0 mdl2 ∧
      ∃ u0 du0 mdl0,
        newton_pass (state_update_mises rtW) ctmW linsolveW
          (scaled_f_ext 0 (external_load_vector mdlW)) 0 100 (init_comm mdlW)
          u0 du0 mdl0 = .ok ⟨u2, du2, mdl2, iv, 0⟩ ∧
        conv_check 0 (1 / 1000000) = true) := by
  refine ⟨passDiv_eq, passDiv_not_conv, ?_, ?_⟩
  · exact (committed_state_only_on_convergence (state_update_mises rtW) ctmW
      linsolveW (scaled_f_ext 1 (external_load_vector mdlDiv)) 1 (1 / 2) 100 0
      0 (fun _ => 0) (fun _ => 0) (init_comm mdlDiv) mdlDiv).1 passDiv
      passDiv_eq passDiv_not_conv
  · obtain ⟨u2, du2, iv, mdl2, h⟩ := loopZ_conv
    obtain ⟨u0, du0, mdl0, hpass, hcv⟩ :=
      (committed_state_only_on_convergence (state_update_mises rtW) ctmW
        linsolveW (scaled_f_ext 0 (external_load_vector mdlW)) 0 (1 / 1000000)
        100 5 0 (fun _ => 0) (fun _ => 0) (init_comm mdlW) mdlW).2 1 u2 du2 iv
        0 mdl2 h
    exact ⟨u2, du2, iv, mdl2, h, u0, du0, mdl0, hpass, hcv⟩

/-- C2 witness: on the diverging model with `max_num_iter = 1` the solver
loop raises the non-convergence error carrying increment index 1, the loop
variable `k = 0 = max_num_iter − 1`, the last residual, and the
still-uncommitted maps. -/
theorem global_nonconvergence_fatal_witness :
    (1 : Nat) ≤ 1 ∧
    solver_loop (state_update_mises rtW) ctmW linsolveW 1 (1 / 2) 100
      (external_load_vector mdlDiv) [1] 0 stDiv =
      .error (.nonconv 1 0 passDiv.errSq stDiv.comm) ∧
    (0 : Nat) = 1 - 1 := by
  have h := global_nonconvergence_fatal (state_update_mises rtW) ctmW
    linsolveW 1 (1 / 2) 100 (external_load_vector mdlDiv) 0 1 [] stDiv 0
    passDiv.errSq passDiv.u2 passDiv.mdl2 (by omega) WD_eq
  exact ⟨le_refl 1, h.1, by omega⟩

/-- C7 witness: the concrete one-element model under `load_increment = [0.0]`
with the default tolerance converges trivially: zero displacement column
and zero committed plastic strain. -/
theorem zero_load_increment_trivial_witness :
    rtW 0 = 0 ∧ (0 : ℚ) ≤ 1 / 1000000 ∧ (1 : Nat) ≤ 5 ∧
    (∃ u2 du2 iv mdl2,
      newton_loop (state_update_mises rtW) ctmW linsolveW
          (scaled_f_ext 0 (external_load_vector mdlW)) 0 (1 / 1000000) 100 5 0
          (fun _ => 0) (fun _ => 0) (init_comm mdlW) mdlW =
        .converged 1 u2 du2 iv 0 mdl2 ∧
      (∀ i, u2 i = 0) ∧ (∀ key, iv.eps_bar_p key = 0)) ∧
    (∃ d st,
      solver (state_update_mises rtW) ctmW linsolveW mdlW (some [0]) 10 5
        (1 / 1000000) 100 = .ok (d, [0], st) ∧
      (∀ i, d.entry i 0 = 0) ∧ (∀ key, st.comm.eps_bar_p key = 0)) := by
  have h := zero_load_increment_trivial rtW ctmW linsolveW mdlW 10 5
    (1 / 1000000) 100 rfl (fun K r hz i => hz i) mdlW_props_zero mdlW_bcZero
    (by norm_num) (by omega)
  obtain ⟨-, hloop, d, st, hok, hd, hc, -⟩ := h
  exact ⟨rfl, by norm_num, by omega, hloop, d, st, hok, hd, hc⟩

/-- C9 witness: the defaults evaluate as claimed and a concrete successful
run returns the history with one row per dof and one column per load
increment, together with the load program. -/
theorem recognized_defaults_witness :
    default_tol = 1 / 1000000 ∧ default_max_num_iter = 5 ∧
    (∃ d st,
      solver (state_update_mises rtW) ctmW linsolveW mdlW (some [0]) 10 5
        default_tol 100 = .ok (d, [0], st) ∧
      d.rows = mdlW.num_dof ∧ d.cols = 1) := by
  obtain ⟨d, st, hok, -, -, -⟩ := @solver_zero_run rtW ctmW linsolveW mdlW
    default_tol 100 rfl (fun K r hz i => hz i) mdlW_props_zero mdlW_bcZero
    (by norm_num [default_tol]) 10 4
  have hdims := recognized_defaults.2.2.2.2.2.2 (state_update_mises rtW) ctmW
    linsolveW mdlW (some [0]) 10 5 default_tol 100 d [0] st hok
  exact ⟨rfl, rfl, d, st, hok, hdims.1, hdims.2.1⟩

/-- C10 witness: `apply_displacement_bc` leaves `mdlW.imposed_displ` intact
and re-scaling with factor 5 after factor 3 yields `5 · 2 = 10`, not
`5 · 3 · 2`. -/
theorem imposed_displ_never_mutated_witness :
    (apply_displacement_bc 3 mdlW).imposed_displ = mdlW.imposed_displ ∧
    alookup 4 (apply_displacement_bc 5 (apply_displacement_bc 3 mdlW)).displacement_bc =
      some (some 10, none) := by
  have h := imposed_displ_never_mutated 3 5 mdlW
  have h2 := h.2.2.2.2.2.2.2.2.2.2 [(4, (some 2, none))] 4 (some 2) none rfl
    (by simp) (by simp)
  refine ⟨h.1, ?_⟩
  rw [h2]
  norm_num

end Skmech
